import Mathlib

/-!
# Verification of the career_attendant job-intake pipeline

A shallow embedding, in Lean 4, of the deterministic core of the job-intake
pipeline found under `api/app/graphs/` of the repository:

* `nodes/preprocess.py` — text cleaning (`clean_text`) and section
  segmentation (`segment_text`, `preprocess_and_segment`);
* `nodes/extract.py`    — fence stripping of the completion response, the
  comprehensive-to-jobdoc mapping (`map_comprehensive_to_jobdoc`), evidence
  assembly (`build_extraction_evidence_from_comprehensive`) and the whole
  stage (`extract_structured_fields`);
* `nodes/ingest.py`, `nodes/summarize.py`, `nodes/persist.py` — the other
  stage functions;
* `job_intake_graph.py`  — the routing predicates and the stage sequencing.

Python strings are modelled as `List Char`; Python dicts as insertion-ordered
association lists with unique keys; JSON values as an inductive type with
rational numbers.  External collaborators (the LLM completion service, the
database, ChromaDB, the uuid/clock sources) are passed in as explicit
parameters describing their outcome, so every stage function is a total,
executable Lean function.
-/

namespace CareerAttendant

/-! ## Python string primitives

`pyIsSpace` models the whitespace class used by Python's `\s`, `str.strip()`
and `str.split()` for the ASCII range (the inputs this development evaluates
never contain non-ASCII whitespace). -/

def pyIsSpace (c : Char) : Bool :=
  c = ' ' || c = '\t' || c = '\n' || c = '\r' || c = '\x0b' || c = '\x0c'

/-- Drop a trailing run of whitespace (the right half of Python `str.strip()`). -/
def dropTrailingWS : List Char → List Char
  | [] => []
  | c :: cs =>
    let r := dropTrailingWS cs
    if r = [] && pyIsSpace c then [] else c :: r

/-- Python `str.strip()` with no arguments: remove leading and trailing
whitespace. -/
def pyStrip (l : List Char) : List Char :=
  dropTrailingWS (l.dropWhile pyIsSpace)

/-- `re.sub(r'\s+', ' ', text)`: every maximal run of whitespace becomes a
single space.  The boolean flag records whether the previous character was
part of a whitespace run. -/
def collapseWSAux : Bool → List Char → List Char
  | _, [] => []
  | inRun, c :: cs =>
    if pyIsSpace c then
      if inRun then collapseWSAux true cs else ' ' :: collapseWSAux true cs
    else c :: collapseWSAux false cs

def collapseWS (l : List Char) : List Char := collapseWSAux false l

/-- Emit a pending run of `n` newlines: three or more become exactly two. -/
def emitNLRun (n : Nat) (rest : List Char) : List Char :=
  (if n ≥ 3 then ['\n', '\n'] else List.replicate n '\n') ++ rest

/-- `re.sub(r'\n{3,}', '\n\n', text)`: every maximal run of three or more
newlines becomes exactly two (`n` counts the newline run in progress). -/
def collapseNLAux : Nat → List Char → List Char
  | n, [] => emitNLRun n []
  | n, c :: cs =>
    if c = '\n' then collapseNLAux (n + 1) cs
    else emitNLRun n (c :: collapseNLAux 0 cs)

def collapseNL (l : List Char) : List Char := collapseNLAux 0 l

/-- Lower-case an ASCII letter (model of the case folding performed by
Python's `(?i)` flag on the ASCII inputs used here). -/
def asciiLower (c : Char) : Char :=
  if 'A' ≤ c && c ≤ 'Z' then Char.ofNat (c.toNat + 32) else c

/-- Case-insensitive literal prefix match. -/
def ciIsPrefix (pat : List Char) (s : List Char) : Bool :=
  ((s.take pat.length).map asciiLower) = pat

theorem ciIsPrefix_length {pat s : List Char} (h : ciIsPrefix pat s = true) :
    pat.length ≤ s.length := by
  simp only [ciIsPrefix, decide_eq_true_eq] at h
  have := congrArg List.length h
  simpa using this

/-- The UI-chrome phrases stripped by
`re.sub(r'(?i)(show more|show less|easy apply|apply now)', '', text)`,
in the order of the source alternation (all lower case; alternatives are
mutually exclusive at any one position, so the order is immaterial). -/
def chromePhrases : List (List Char) :=
  ["show more".data, "show less".data, "easy apply".data, "apply now".data]

/-- The length of the (unique) chrome phrase matching at the head of `s`,
if any. -/
def chromeMatch (s : List Char) : Option Nat :=
  (chromePhrases.find? (fun p => ciIsPrefix p s)).map List.length

theorem chromeMatch_bounds {s : List Char} {n : Nat} (h : chromeMatch s = some n) :
    9 ≤ n ∧ n ≤ s.length := by
  obtain ⟨p, hfind, hlen⟩ := Option.map_eq_some'.1 h
  have hpre := List.find?_some hfind
  have hle : p.length ≤ s.length := ciIsPrefix_length hpre
  have hmem := List.mem_of_find?_eq_some hfind
  subst hlen
  refine ⟨?_, hle⟩
  fin_cases hmem <;> simp [String.data]

/-- Delete every (case-insensitive, non-overlapping, leftmost-first)
occurrence of a chrome phrase.  Structural recursion on a fuel bound (every
step consumes at least one character, so `l.length + 1` units always
suffice; the fuel keeps the definition kernel-computable). -/
def removePhrasesAux : Nat → List Char → List Char
  | 0, l => l
  | fuel + 1, l =>
    match chromeMatch l with
    | some n => removePhrasesAux fuel (l.drop n)
    | none =>
      match l with
      | [] => []
      | c :: cs => c :: removePhrasesAux fuel cs

def removePhrases (l : List Char) : List Char := removePhrasesAux (l.length + 1) l

/-- The HTML-entity decoding step (`html.unescape`).  Modelled from the
Python standard library: on a string that contains no ampersand it returns
its argument unchanged (the fast path of CPython's implementation); for
strings with an ampersand the five predefined XML entities are decoded.
All inputs evaluated in this development are ampersand-free, so only the
fast path matters for the theorems below. -/
def htmlEntities : List (List Char × Char) :=
  [("&amp;".data, '&'), ("&lt;".data, '<'), ("&gt;".data, '>'),
   ("&quot;".data, '"'), ("&#39;".data, '\'')]

def entityMatch (s : List Char) : Option (Nat × Char) :=
  (htmlEntities.find? (fun e => ciIsPrefix e.1 s)).map (fun e => (e.1.length, e.2))

theorem entityMatch_bounds {s : List Char} {n : Nat} {c : Char}
    (h : entityMatch s = some (n, c)) : 4 ≤ n ∧ n ≤ s.length := by
  obtain ⟨e, hfind, hlen⟩ := Option.map_eq_some'.1 h
  have hpre := List.find?_some hfind
  have hle : e.1.length ≤ s.length := ciIsPrefix_length hpre
  have hmem := List.mem_of_find?_eq_some hfind
  have hn : n = e.1.length := by
    have := congrArg Prod.fst hlen
    simpa using this.symm
  subst hn
  refine ⟨?_, hle⟩
  fin_cases hmem <;> simp [String.data]

def unescapeAux : Nat → List Char → List Char
  | 0, l => l
  | fuel + 1, l =>
    match entityMatch l with
    | some (n, c) => c :: unescapeAux fuel (l.drop n)
    | none =>
      match l with
      | [] => []
      | c :: cs => c :: unescapeAux fuel cs

def htmlUnescape (l : List Char) : List Char :=
  if '&' ∈ l then unescapeAux (l.length + 1) l else l

/-- `clean_text` from `nodes/preprocess.py`: decode HTML entities, collapse
whitespace runs to single spaces, collapse runs of three-plus newlines,
strip the chrome phrases, trim. -/
def cleanText (l : List Char) : List Char :=
  pyStrip (removePhrases (collapseNL (collapseWS (htmlUnescape l))))

/-! ## Section segmentation

The `SECTION_PATTERNS` of `nodes/preprocess.py` are case-insensitive regular
expressions of the shape `(?i)\b(alt₁|alt₂|…)\b` where every alternative is a
sequence of literal words separated by `\s+`, with optional pieces
(`(?:…)?`) and nested alternations.  Each pattern is embedded here as the
ordered list of its fully expanded word sequences, listed in the exact
backtracking (depth-first, greedy-option-first) order in which Python's `re`
engine tries them; this is faithful because the literal words never start
with whitespace, so the greedy `\s+` runs never need to backtrack. -/

/-- Python `\w` (ASCII range; the texts of this development are ASCII). -/
def isWordChar (c : Char) : Bool :=
  ('a' ≤ c && c ≤ 'z') || ('A' ≤ c && c ≤ 'Z') || ('0' ≤ c && c ≤ '9') || c = '_'

/-- Match `\s+ word` sequences after the first word of an alternative;
returns the number of characters consumed. -/
def matchTail : List (List Char) → List Char → Option Nat
  | [], _ => some 0
  | w :: ws, s =>
    let sp := (s.takeWhile pyIsSpace).length
    if sp = 0 then none
    else if ciIsPrefix w (s.drop sp) then
      (matchTail ws ((s.drop sp).drop w.length)).map (fun n => sp + w.length + n)
    else none

/-- Match one expanded alternative (a nonempty word sequence) at the head of
`s`. -/
def matchPhrase (ph : List (List Char)) (s : List Char) : Option Nat :=
  match ph with
  | [] => none
  | w :: ws =>
    if ciIsPrefix w s then (matchTail ws (s.drop w.length)).map (fun n => w.length + n)
    else none

/-- The trailing `\b` of a pattern: the character right after the match (all
alternatives end in a word character) must not be a word character. -/
def boundaryAfter (rest : List Char) : Bool :=
  match rest with
  | [] => true
  | c :: _ => !isWordChar c

/-- Try the alternatives of one pattern in order at the head of `s`,
first success wins (Python alternation semantics); the trailing `\b` is part
of each attempt. -/
def matchAlts (alts : List (List (List Char))) (s : List Char) : Option Nat :=
  alts.findSome? (fun ph =>
    match matchPhrase ph s with
    | some n => if boundaryAfter (s.drop n) then some n else none
    | none => none)

/-- The leading `\b`: all alternatives start with a word character, so the
boundary holds exactly when the preceding character is absent or not a word
character. -/
def boundaryBefore (text : List Char) (i : Nat) : Bool :=
  if i = 0 then true
  else
    match text[i-1]? with
    | some c => !isWordChar c
    | none => true

/-- All positions (with match lengths) where the pattern could match. -/
def allCandidates (alts : List (List (List Char))) (text : List Char) :
    List (Nat × Nat) :=
  (List.range text.length).filterMap (fun i =>
    if boundaryBefore text i then (matchAlts alts (text.drop i)).map (fun n => (i, n))
    else none)

/-- Resolve candidates into the non-overlapping, leftmost-first match list
produced by `re.finditer` (scanning resumes after each match). -/
def greedySelect : Nat → List (Nat × Nat) → List (Nat × Nat)
  | _, [] => []
  | cursor, (i, n) :: rest =>
    if cursor ≤ i then (i, n) :: greedySelect (i + n) rest
    else greedySelect cursor rest

/-- `re.finditer(pattern, text)` for one section pattern: the list of
`(start, matchLength)` pairs. -/
def patternMatches (alts : List (List (List Char))) (text : List Char) :
    List (Nat × Nat) :=
  greedySelect 0 (allCandidates alts text)

def wordsOf (ws : List String) : List (List Char) := ws.map String.data

/-- `SECTION_PATTERNS`, in source order, each expanded into its DFS-ordered
alternative list. -/
def sectionPatterns : List (List (List (List Char)) × String) :=
  [ ([wordsOf ["about", "the", "job"], wordsOf ["about", "the", "role"],
      wordsOf ["about", "the", "position"], wordsOf ["about", "the", "opportunity"],
      wordsOf ["about", "job"], wordsOf ["about", "role"],
      wordsOf ["about", "position"], wordsOf ["about", "opportunity"]], "about"),
    ([wordsOf ["responsibilities"],
      wordsOf ["what", "you'll", "do"], wordsOf ["what", "you'll", "be", "doing"],
      wordsOf ["what", "you", "do"], wordsOf ["what", "you", "be", "doing"],
      wordsOf ["your", "role"]], "responsibilities"),
    ([wordsOf ["requirements"], wordsOf ["qualifications"],
      wordsOf ["what", "you'll", "need"], wordsOf ["what", "you", "need"],
      wordsOf ["what", "we're", "looking", "for"],
      wordsOf ["what", "we", "looking", "for"],
      wordsOf ["must", "have"]], "requirements"),
    ([wordsOf ["nice", "to", "have"], wordsOf ["preferred"], wordsOf ["bonus"],
      wordsOf ["ideal"]], "qualifications"),
    ([wordsOf ["benefits"], wordsOf ["perks"], wordsOf ["what", "we", "offer"],
      wordsOf ["compensation"], wordsOf ["salary"], wordsOf ["pay", "range"],
      wordsOf ["why", "is", "this"], wordsOf ["why", "join"],
      wordsOf ["why", "work"]], "benefits"),
    ([wordsOf ["about", "the", "company"], wordsOf ["about", "company"],
      wordsOf ["about", "us"], wordsOf ["who", "we", "are"]], "company_info"),
    ([wordsOf ["additional", "information"], wordsOf ["other", "information"]],
     "additional") ]

/-! ### The segment dictionary (Python dict of str → str) -/

abbrev SegDict := List (String × List Char)

def sgetOpt (d : SegDict) (k : String) : Option (List Char) :=
  (d.find? (fun e => e.1 = k)).map (·.2)

/-- `segments.get(k, default)`. -/
def sget (d : SegDict) (k : String) (dflt : List Char) : List Char :=
  (sgetOpt d k).getD dflt

/-- `segments[k] = v`: overwrite in place, or append a new key (Python dict
insertion order). -/
def sset (d : SegDict) (k : String) (v : List Char) : SegDict :=
  match d with
  | [] => [(k, v)]
  | (k', v') :: rest => if k' = k then (k, v) :: rest else (k', v') :: sset rest k v

/-- The end position of a section: the start of the next match, or the end
of the text. -/
def sectionEnd (text : List Char) (rest : List (Nat × Nat × String)) : Nat :=
  match rest with
  | (p, _, _) :: _ => p
  | [] => text.length

/-- `text[start_pos + len(header):end_pos].strip()`. -/
def sectionContent (text : List Char) (pos hlen : Nat)
    (rest : List (Nat × Nat × String)) : List Char :=
  pyStrip ((text.take (sectionEnd text rest)).drop (pos + hlen))

/-- The recording loop of `segment_text`: walk the sorted match list; the
content of a match runs from the end of its header to the start of the next
match (or end of text); record if longer than 50 characters, preferring the
longer content on a repeated name — and incrementing `section_count` on
every recording, replacements included. -/
def recordSections (text : List Char) :
    List (Nat × Nat × String) → SegDict → Nat → SegDict × Nat
  | [], segs, count => (segs, count)
  | (pos, hlen, name) :: rest, segs, count =>
    let content := sectionContent text pos hlen rest
    if content ≠ [] ∧ content.length > 50 then
      if (sgetOpt segs name).isNone ∨ content.length > (sget segs name []).length then
        recordSections text rest (sset segs name content) (count + 1)
      else recordSections text rest segs count
    else recordSections text rest segs count

/-- Stable insertion by start offset: an element goes after every earlier
element with an offset `<` its own and before the first with an offset
`≥` it, so elements with equal offsets keep their original order.  Stable
sorts by one key agree extensionally, so this computes exactly what
CPython's stable `section_starts.sort(key=lambda x: x[0])` computes. -/
def insertByPos (x : Nat × Nat × String) : List (Nat × Nat × String) → List (Nat × Nat × String)
  | [] => [x]
  | y :: ys => if y.1 < x.1 then y :: insertByPos x ys else x :: y :: ys

def sortByPos : List (Nat × Nat × String) → List (Nat × Nat × String)
  | [] => []
  | x :: xs => insertByPos x (sortByPos xs)

/-- `segment_text` from `nodes/preprocess.py`. -/
def segmentText (text : List Char) : SegDict × Nat :=
  let starts :=
    sectionPatterns.flatMap (fun pn =>
      (patternMatches pn.1 text).map (fun m => (m.1, m.2, pn.2)))
  recordSections text (sortByPos starts) [("full_text", text)] 0

/-- Python `len(text.split())`: the number of maximal non-whitespace runs. -/
def countWordsAux : Bool → List Char → Nat
  | _, [] => 0
  | inWord, c :: cs =>
    if pyIsSpace c then countWordsAux false cs
    else (if inWord then 0 else 1) + countWordsAux true cs

def pyWordCount (l : List Char) : Nat := countWordsAux false l

structure DocStats where
  charCount : Nat
  wordCount : Nat
  tokenCount : Nat
  sectionCount : Nat
  language : String
deriving Repr, DecidableEq

structure PreprocessOut where
  segmented : SegDict
  /-- `none` models the empty `doc_stats` dict `{}` of the short-circuit
  branch. -/
  docStats : Option DocStats
  errors : List String
deriving Repr, DecidableEq

/-- `preprocess_and_segment` from `nodes/preprocess.py`. -/
def preprocessAndSegment (rawText : List Char) (errors0 : List String) :
    PreprocessOut :=
  let cleaned := cleanText rawText
  if cleaned = [] then
    { segmented := [("full_text", [])], docStats := none,
      errors := errors0 ++ ["No text content after cleaning"] }
  else
    let sc := segmentText cleaned
    { segmented := sc.1,
      docStats := some { charCount := cleaned.length, wordCount := pyWordCount cleaned,
                         tokenCount := cleaned.length / 4, sectionCount := sc.2,
                         language := "en" },
      errors := errors0 }

/-- `doc_stats.get("char_count", 0)` as read by the orchestrator. -/
def statsCharCount (o : PreprocessOut) : Nat :=
  match o.docStats with
  | none => 0
  | some st => st.charCount

/-- `should_continue_after_preprocess` from `job_intake_graph.py`. -/
def shouldContinueAfterPreprocess (o : PreprocessOut) : String :=
  if statsCharCount o < 100 then "end" else "extract"

/-! ## JSON values and Python dicts

JSON numbers are modelled as rationals (every JSON numeral denotes a
rational; the comparisons performed by the code — `overall_confidence > 0.7`
— are exact on the decimal literals involved).  Objects are insertion-ordered
association lists; the JSON documents and dicts handled in this development
have pairwise-distinct keys. -/

inductive JValue where
  | jnull : JValue
  | jbool : Bool → JValue
  | jnum : ℚ → JValue
  | jstr : String → JValue
  | jarr : List JValue → JValue
  | jobj : List (String × JValue) → JValue

abbrev JDict := List (String × JValue)

open JValue

def jget (d : JDict) (k : String) : Option JValue :=
  (d.find? (fun e => e.1 == k)).map (·.2)

/-- `d.get(k, dflt)`. -/
def jgetD (d : JDict) (k : String) (dflt : JValue) : JValue :=
  (jget d k).getD dflt

/-- `d[k] = v` with Python dict insertion-order semantics. -/
def jset (d : JDict) (k : String) (v : JValue) : JDict :=
  match d with
  | [] => [(k, v)]
  | (k', v') :: rest => if k' = k then (k, v) :: rest else (k', v') :: jset rest k v

/-- Python truthiness of a JSON value. -/
def truthy : JValue → Bool
  | jnull => false
  | jbool b => b
  | jnum q => decide (q ≠ 0)
  | jstr s => s != ""
  | jarr l => !l.isEmpty
  | jobj d => !d.isEmpty

/-- View a value as a dict.  The source calls `.get` directly on these
values, which would raise for a non-dict; the claims only exercise
well-shaped documents, where the value is an object (or the default `{}`). -/
def asObj : JValue → JDict
  | jobj d => d
  | _ => []

/-- View a value as a list (same caveat as `asObj`). -/
def asArr : JValue → List JValue
  | jarr l => l
  | _ => []

/-- View a value as a Python string (used by `", ".join(location_parts)`;
the well-shaped documents exercised here always hold strings there). -/
def asStr : JValue → String
  | jstr s => s
  | _ => ""

/-- A value that is not Python `None` (JSON `null`). -/
def notNull : JValue → Bool
  | jnull => false
  | _ => true

/-- `d.get(k)` is not `None`. -/
def jhasNonNull (d : JDict) (k : String) : Bool :=
  match jget d k with
  | some v => notNull v
  | none => false

/-- Python `==` between a JSON value and a string literal. -/
def jeqStr (v : JValue) (s : String) : Bool :=
  match v with
  | jstr t => t == s
  | _ => false

/-! ## `map_comprehensive_to_jobdoc` (nodes/extract.py, lines 217–303)

Translated block by block; `jobdoc` starts as a copy of
`extension_extracted` and each block conditionally overwrites fields. -/

/-- The `# Extract from metadata` block: job_title, company_name, industry. -/
def applyMetadata (metadata : JDict) (j : JDict) : JDict :=
  let j := if truthy (jgetD metadata "job_title" jnull) then
      jset j "job_title" (jgetD metadata "job_title" jnull) else j
  let j := if truthy (jgetD metadata "company_name" jnull) then
      jset j "company_name" (jgetD metadata "company_name" jnull) else j
  if truthy (jgetD metadata "industry" jnull) then
    jset j "industry" (jgetD metadata "industry" jnull)
  else j

/-- The `# Location` block: location parts, city/country, remote mapping. -/
def applyLocation (metadata : JDict) (j : JDict) : JDict :=
  let location := jgetD metadata "location" (jobj [])
  if truthy location then
    let loc := asObj location
    let city := jgetD loc "city" jnull
    let state := jgetD loc "state_province" jnull
    let country := jgetD loc "country" jnull
    let parts : List String :=
      (if truthy city then [asStr city] else []) ++
      (if truthy state then [asStr state] else []) ++
      (if truthy country then [asStr country] else [])
    let j := if truthy city then jset j "location_city" city else j
    let j := if truthy country then jset j "location_country" country else j
    let j := if parts ≠ [] then jset j "location" (jstr (String.intercalate ", " parts)) else j
    let rp := jgetD loc "remote_policy" jnull
    if truthy rp then
      if jeqStr rp "fully_remote" then jset j "remote_type" (jstr "remote")
      else if jeqStr rp "hybrid_flexible" || jeqStr rp "hybrid_fixed" then
        jset j "remote_type" (jstr "hybrid")
      else if jeqStr rp "onsite" then jset j "remote_type" (jstr "onsite")
      else j
    else j
  else j

/-- The `# Employment type -> role_type` block. -/
def applyEmployment (metadata : JDict) (j : JDict) : JDict :=
  if truthy (jgetD metadata "employment_type" jnull) then
    jset j "role_type" (jgetD metadata "employment_type" jnull)
  else j

/-- The `# Experience profile` block. -/
def applyExperience (comp : JDict) (j : JDict) : JDict :=
  let expProfile := asObj (jgetD comp "experience_profile" (jobj []))
  let yearsRequired := asObj (jgetD expProfile "years_required" (jobj []))
  let j := if jhasNonNull yearsRequired "minimum" then
      jset j "years_experience_min" (jgetD yearsRequired "minimum" jnull) else j
  let j := if jhasNonNull yearsRequired "maximum" then
      jset j "years_experience_max" (jgetD yearsRequired "maximum" jnull) else j
  if truthy (jgetD expProfile "seniority_level" jnull) then
    jset j "seniority" (jgetD expProfile "seniority_level" jnull)
  else j

/-- The `# Compensation` block. -/
def applyCompensation (comp : JDict) (j : JDict) : JDict :=
  let compensation := asObj (jgetD comp "compensation" (jobj []))
  let salary := asObj (jgetD compensation "salary" (jobj []))
  let j := if jhasNonNull salary "min" then
      jset j "salary_min" (jgetD salary "min" jnull) else j
  let j := if jhasNonNull salary "max" then
      jset j "salary_max" (jgetD salary "max" jnull) else j
  let j := if truthy (jgetD salary "currency" jnull) then
      jset j "salary_currency" (jgetD salary "currency" jnull) else j
  if truthy (jgetD salary "period" jnull) then
    jset j "salary_period" (jgetD salary "period" jnull)
  else j

/-- The `# Skills` block (`s["skill_name"]` on a malformed entry would raise
a `KeyError` in the source; the well-shaped documents exercised here always
carry the key). -/
def applySkills (comp : JDict) (j : JDict) : JDict :=
  let skillsBreakdown := asObj (jgetD comp "skills_breakdown" (jobj []))
  let technicalSkills := asArr (jgetD skillsBreakdown "technical_skills" (jarr []))
  if !technicalSkills.isEmpty then
    let required := (technicalSkills.filter
        (fun s => truthy (jgetD (asObj s) "is_required" jnull))).map
        (fun s => jgetD (asObj s) "skill_name" jnull)
    let preferred := (technicalSkills.filter
        (fun s => !truthy (jgetD (asObj s) "is_required" jnull))).map
        (fun s => jgetD (asObj s) "skill_name" jnull)
    let j := if !required.isEmpty then jset j "required_skills" (jarr (required.take 15)) else j
    if !preferred.isEmpty then jset j "preferred_skills" (jarr (preferred.take 10)) else j
  else j

/-- `map_comprehensive_to_jobdoc`: start from a copy of the
extension-extracted fields and overwrite from the comprehensive analysis. -/
def mapComprehensiveToJobdoc (comp : JDict) (ext : JDict) : JDict :=
  let metadata := asObj (jgetD comp "metadata" (jobj []))
  applySkills comp (applyCompensation comp (applyExperience comp
    (applyEmployment metadata (applyLocation metadata (applyMetadata metadata ext)))))

/-! ## Evidence assembly (`build_extraction_evidence_from_comprehensive`) -/

structure EvidenceEntry where
  field : String
  value : JValue
  evidence : String
  confidence : String
  source : String

/-- `parsing_confidence.get("overall_confidence", 0.5)` (a non-numeric value
there would make the Python comparison raise; outside modeled scope). -/
def overallConfidence (comp : JDict) : ℚ :=
  match jget (asObj (jgetD comp "parsing_confidence" (jobj []))) "overall_confidence" with
  | some (jnum q) => q
  | some _ => mkRat 1 2
  | none => mkRat 1 2

def buildExtractionEvidenceFromComprehensive (comp : JDict) : List EvidenceEntry :=
  let metadata := asObj (jgetD comp "metadata" (jobj []))
  let oc := overallConfidence comp
  let fieldEv := (["job_title", "company_name", "industry"] : List String).filterMap
    (fun f =>
      let v := jgetD metadata f jnull
      if truthy v then
        some { field := f, value := v, evidence := "Extracted from job posting",
               confidence := if oc > mkRat 7 10 then "high" else "medium",
               source := "llm_comprehensive" }
      else none)
  let reqs := asArr (jgetD comp "requirements" (jarr []))
  let reqEv : List EvidenceEntry :=
    if !reqs.isEmpty then
      [{ field := "requirements_count", value := jnum reqs.length,
         evidence := "Extracted " ++ toString reqs.length ++ " requirements",
         confidence := "high", source := "llm_comprehensive" }]
    else []
  fieldEv ++ reqEv

/-- The per-field client evidence loop at the end of
`extract_structured_fields` (`if value is not None`). -/
def extensionEvidence (ext : JDict) : List EvidenceEntry :=
  ext.filterMap (fun e =>
    if notNull e.2 then
      some { field := e.1, value := e.2, evidence := "Client-side extraction",
             confidence := "medium", source := "extension" }
    else none)

/-! ## Python substring search and `str.split(sep)` -/

/-- Index of the leftmost occurrence of `needle` in `s`, if any
(`str.find`). -/
def findSub (needle : List Char) : List Char → Option Nat
  | [] => if needle.isPrefixOf ([] : List Char) then some 0 else none
  | c :: cs =>
    if needle.isPrefixOf (c :: cs) then some 0
    else (findSub needle cs).map (· + 1)

/-- Python `needle in s`. -/
def containsSub (s needle : List Char) : Bool :=
  (findSub needle s).isSome

theorem findSub_isPrefix {needle s : List Char} {i : Nat}
    (h : findSub needle s = some i) : needle.isPrefixOf (s.drop i) = true := by
  induction s generalizing i with
  | nil =>
    simp only [findSub] at h
    split at h
    · rename_i hp
      cases h
      simpa using hp
    · cases h
  | cons c cs ih =>
    simp only [findSub] at h
    split at h
    · rename_i hp
      cases h
      simpa using hp
    · obtain ⟨j, hj, rfl⟩ := Option.map_eq_some'.1 h
      simpa using ih hj

theorem findSub_lt_length {needle s : List Char} {i : Nat}
    (hne : needle ≠ []) (h : findSub needle s = some i) : i < s.length := by
  have hp := findSub_isPrefix h
  rw [List.isPrefixOf_iff_prefix] at hp
  rcases hp with ⟨t, ht⟩
  have : (s.drop i).length ≠ 0 := by
    intro h0
    rw [← ht] at h0
    simp only [List.length_append, Nat.add_eq_zero, List.length_eq_zero] at h0
    exact hne h0.1
  simp only [List.length_drop] at this
  omega

/-- The single pass behind Python `s.split(sep)`: `skip` counts characters
of a just-matched separator still to be consumed, `cur` accumulates the
current segment in reverse. -/
def splitGo (needle : List Char) : Nat → List Char → List Char → List (List Char)
  | _, [], cur => [cur.reverse]
  | skip + 1, _ :: cs, cur => splitGo needle skip cs cur
  | 0, c :: cs, cur =>
    if needle.isPrefixOf (c :: cs) then
      cur.reverse :: splitGo needle (needle.length - 1) cs []
    else splitGo needle 0 cs (c :: cur)

/-- Python `s.split(sep)` for a nonempty separator: split at every
(leftmost, non-overlapping) occurrence. -/
def splitSub (needle : List Char) (s : List Char) : List (List Char) :=
  if needle.isEmpty then [s] else splitGo needle 0 s []

/-- The fence-stripping logic of `extract_structured_fields`
(nodes/extract.py, lines 414–417):

```python
if "```json" in response_text:
    response_text = response_text.split("```json")[1].split("```")[0]
elif "```" in response_text:
    response_text = response_text.split("```")[1].split("```")[0]
```

A list index `[i]` on a split result that is guaranteed nonempty at that
index is modelled with `getD`/`headD`. -/
def fenceJson : List Char := "```json".data
def fenceBare : List Char := "```".data

def fenceStrip (resp : List Char) : List Char :=
  if containsSub resp fenceJson then
    let seg := (splitSub fenceJson resp).getD 1 []
    (splitSub fenceBare seg).headD []
  else if containsSub resp fenceBare then
    let seg := (splitSub fenceBare resp).getD 1 []
    (splitSub fenceBare seg).headD []
  else resp

/-! ## JSON parsing (`json.loads`)

A recursive-descent parser for the JSON grammar accepted by Python's
`json.loads` (strict mode): the six value forms, string escapes
(including `\uXXXX`, without surrogate pairing), numbers with optional
sign/fraction/exponent, and insignificant whitespace.  The nonstandard
CPython extensions (`NaN`, `Infinity`) are not modelled; no claim depends
on them.  Recursion is fuelled by the input length, which bounds the
number of syntactic elements. -/

def jsonWs (c : Char) : Bool := c = ' ' || c = '\t' || c = '\n' || c = '\r'

def skipJWs (s : List Char) : List Char := s.dropWhile jsonWs

def isDigit (c : Char) : Bool := '0' ≤ c && c ≤ '9'

def digitsToNat (ds : List Char) : Nat :=
  ds.foldl (fun a c => a * 10 + (c.toNat - '0'.toNat)) 0

/-- The value of one hexadecimal digit (codepoints: digits 48–57, lower
case 97–102, upper case 65–70). -/
def hexVal (c : Char) : Option Nat :=
  let n := c.toNat
  if 48 ≤ n && n ≤ 57 then some (n - 48)
  else if 97 ≤ n && n ≤ 102 then some (n - 87)
  else if 65 ≤ n && n ≤ 70 then some (n - 55)
  else none

/-- The single-character string escapes of JSON. -/
def escChar (e : Char) : Option Char :=
  if e = '"' then some '"'
  else if e = '\\' then some '\\'
  else if e = '/' then some '/'
  else if e = 'b' then some '\x08'
  else if e = 'f' then some '\x0c'
  else if e = 'n' then some '\n'
  else if e = 'r' then some '\r'
  else if e = 't' then some '\t'
  else none

/-- Parse the body of a JSON string after the opening quote; returns the
content and the remainder after the closing quote.  Raw control characters
are rejected (Python's strict mode); `\uXXXX` decodes a single code unit
(surrogate pairing is not modelled; no claim depends on it). -/
def parseStringBody : List Char → Option (List Char × List Char)
  | [] => none
  | '"' :: rest => some ([], rest)
  | '\\' :: 'u' :: h1 :: h2 :: h3 :: h4 :: rest =>
    match hexVal h1, hexVal h2, hexVal h3, hexVal h4 with
    | some a, some b, some c', some d =>
      let n := ((a * 16 + b) * 16 + c') * 16 + d
      (parseStringBody rest).map
        (fun p => ((if h : n.isValidChar then Char.ofNatAux n h else '?') :: p.1, p.2))
    | _, _, _, _ => none
  | '\\' :: e :: rest =>
    match escChar e with
    | some d => (parseStringBody rest).map (fun p => (d :: p.1, p.2))
    | none => none
  | c :: rest =>
    if c.toNat < 32 then none
    else (parseStringBody rest).map (fun p => (c :: p.1, p.2))

/-- Parse a JSON number at the head of `s` (grammar:
`-? int frac? exp?`, no leading zeros). -/
def parseNumber (s : List Char) : Option (ℚ × List Char) :=
  let (neg, s1) := match s with
    | '-' :: t => (true, t)
    | _ => (false, s)
  let intDigits := s1.takeWhile isDigit
  let s2 := s1.dropWhile isDigit
  if intDigits = [] then none
  else if intDigits.length > 1 ∧ intDigits.headD '0' = '0' then none
  else
    let ipart : ℚ := (digitsToNat intDigits : ℚ)
    let (q1, s3) : ℚ × List Char := match s2 with
      | '.' :: t =>
        let fracDigits := t.takeWhile isDigit
        if fracDigits = [] then (ipart, s2)   -- flagged invalid below
        else (ipart + (digitsToNat fracDigits : ℚ) / ((10 : ℚ) ^ fracDigits.length),
              t.dropWhile isDigit)
      | _ => (ipart, s2)
    -- a '.' not followed by a digit is a parse error
    match s2 with
    | '.' :: t =>
      if t.takeWhile isDigit = [] then none
      else parseNumberExp neg q1 s3
    | _ => parseNumberExp neg q1 s3
where
  parseNumberExp (neg : Bool) (q : ℚ) (s : List Char) : Option (ℚ × List Char) :=
    let signedQ := if neg then -q else q
    match s with
    | c :: t =>
      if c = 'e' ∨ c = 'E' then
        let (eneg, t1) := match t with
          | '-' :: u => (true, u)
          | '+' :: u => (false, u)
          | _ => (false, t)
        let expDigits := t1.takeWhile isDigit
        if expDigits = [] then none
        else
          let e : ℤ := if eneg then -(digitsToNat expDigits : ℤ) else (digitsToNat expDigits : ℤ)
          some (signedQ * (10 : ℚ) ^ e, t1.dropWhile isDigit)
      else some (signedQ, s)
    | [] => some (signedQ, s)

mutual

/-- Parse one JSON value (after skipping leading whitespace). -/
def parseValue : Nat → List Char → Option (JValue × List Char)
  | 0, _ => none
  | fuel + 1, s =>
    match skipJWs s with
    | [] => none
    | c :: cs =>
      if c = '{' then
        match skipJWs cs with
        | '}' :: rest => some (jobj [], rest)
        | s' => (parseObjItems fuel s').map (fun p => (jobj p.1, p.2))
      else if c = '[' then
        match skipJWs cs with
        | ']' :: rest => some (jarr [], rest)
        | s' => (parseArrItems fuel s').map (fun p => (jarr p.1, p.2))
      else if c = '"' then
        (parseStringBody cs).map (fun p => (jstr (String.mk p.1), p.2))
      else if c = 't' then
        if "rue".data.isPrefixOf cs then some (jbool true, cs.drop 3) else none
      else if c = 'f' then
        if "alse".data.isPrefixOf cs then some (jbool false, cs.drop 4) else none
      else if c = 'n' then
        if "ull".data.isPrefixOf cs then some (jnull, cs.drop 3) else none
      else
        (parseNumber (c :: cs)).map (fun p => (jnum p.1, p.2))

/-- Parse `value (, value)* ]` inside an array. -/
def parseArrItems : Nat → List Char → Option (List JValue × List Char)
  | 0, _ => none
  | fuel + 1, s =>
    match parseValue fuel s with
    | none => none
    | some (v, rest) =>
      match skipJWs rest with
      | ']' :: rest' => some ([v], rest')
      | ',' :: rest' => (parseArrItems fuel rest').map (fun p => (v :: p.1, p.2))
      | _ => none

/-- Parse `"key": value (, "key": value)* }` inside an object. -/
def parseObjItems : Nat → List Char → Option (JDict × List Char)
  | 0, _ => none
  | fuel + 1, s =>
    match skipJWs s with
    | '"' :: cs =>
      match parseStringBody cs with
      | none => none
      | some (key, rest) =>
        match skipJWs rest with
        | ':' :: rest' =>
          match parseValue fuel rest' with
          | none => none
          | some (v, rest'') =>
            match skipJWs rest'' with
            | '}' :: rest3 => some ([(String.mk key, v)], rest3)
            | ',' :: rest3 =>
              (parseObjItems fuel rest3).map (fun p => ((String.mk key, v) :: p.1, p.2))
            | _ => none
        | _ => none
    | _ => none

end

/-- `json.loads(s)`: one JSON document with optional surrounding
whitespace, nothing after it. -/
def jsonParse (s : List Char) : Option JValue :=
  match parseValue (s.length + 1) s with
  | some (v, rest) => if skipJWs rest = [] then some v else none
  | none => none

/-! ## The extract stage (`extract_structured_fields`) -/

/-- The section-concatenation that builds `text_to_analyze`
(nodes/extract.py, lines 372–380). -/
def textToAnalyze (segmented : SegDict) : List Char :=
  sget segmented "requirements" [] ++ "\n\n".data ++
  sget segmented "responsibilities" [] ++ "\n\n".data ++
  sget segmented "about" [] ++ "\n\n".data ++
  sget segmented "benefits" [] ++ "\n\n".data ++
  sget segmented "additional" [] ++ "\n\n".data ++
  sget segmented "qualifications" [] ++ "\n\n".data ++
  (sget segmented "full_text" []).take 8000

/-- The error strings appended by the stage.  In the source the two failure
messages carry the `str(e)` of the caught exception as a suffix; the suffix
is elided here, which no claim depends on. -/
def noTextMsg : String := "No text available for LLM extraction"
def parseErrorMsg : String := "Failed to parse LLM response as JSON"
def llmFailedMsg : String := "LLM extraction failed"

structure ExtractOut where
  comprehensiveAnalysis : JDict
  extractionEvidence : List EvidenceEntry
  jobdoc : JDict
  errors : List String

/-- `extract_structured_fields` from `nodes/extract.py`.  The completion
service is an external collaborator: `llmResponse = none` models the call
raising an exception, `some resp` models it returning the text `resp`.
A successful parse that yields a non-object makes the source's logging call
`comprehensive_analysis.keys()` raise inside the `try` block; the broad
`except Exception` handler then resets the analysis to `{}` — the
`some _` branch below. -/
def extractStructuredFields (segmented : SegDict) (ext : JDict)
    (errors0 : List String) (llmResponse : Option (List Char)) : ExtractOut :=
  let tta := textToAnalyze segmented
  if pyStrip tta = [] then
    { comprehensiveAnalysis := [], extractionEvidence := [],
      jobdoc := ext, errors := errors0 ++ [noTextMsg] }
  else
    let ce : JDict × List String :=
      match llmResponse with
      | none => ([], errors0 ++ [llmFailedMsg])
      | some resp =>
        match jsonParse (pyStrip (fenceStrip resp)) with
        | some (jobj d) => (d, errors0)
        | some _ => ([], errors0 ++ [llmFailedMsg])
        | none => ([], errors0 ++ [parseErrorMsg])
    let jobdoc := mapComprehensiveToJobdoc ce.1 ext
    let evidence := buildExtractionEvidenceFromComprehensive ce.1 ++ extensionEvidence ext
    { comprehensiveAnalysis := ce.1, extractionEvidence := evidence,
      jobdoc := jobdoc, errors := ce.2 }

/-- `should_run_summary` from `job_intake_graph.py`. -/
def shouldRunSummary (jobdoc : JDict) : String :=
  if truthy (jgetD jobdoc "job_title" jnull) || truthy (jgetD jobdoc "required_skills" jnull)
  then "summarize" else "persist"

/-- `should_continue_after_ingest` from `job_intake_graph.py`. -/
def shouldContinueAfterIngest (errors : List String) : String :=
  if !errors.isEmpty then "end" else "preprocess"

/-! ## The ingest stage (`ingest_raw_capture`)

`thread_id` (a fresh uuid) and `ingested_at` (the clock) come from external
sources and are passed in as parameters.  `extension_extracted` arrives here
already as a dict, so the `isinstance` normalization is the identity. -/

structure IngestOut where
  threadId : String
  ingestedAt : String
  extensionExtracted : JDict
  errors : List String

def ingestRawCapture (jobUrl : String) (rawText : List Char) (ext : JDict)
    (errors0 : List String) (threadId ingestedAt : String) : IngestOut :=
  let errors := if jobUrl == "" then errors0 ++ ["job_url is required"] else errors0
  let errors :=
    if rawText.isEmpty && ext.isEmpty then
      errors ++ ["Either raw_text or extension_extracted is required"]
    else errors
  { threadId := threadId, ingestedAt := ingestedAt,
    extensionExtracted := ext, errors := errors }

/-! ## The summarize stage (`generate_job_summary`) -/

/-- The "What Success Looks Like" scraping loop: once a line containing
`success looks like` (case-insensitively) is seen, collect the following
lines until a markdown heading (`#`) or bold lead-in (`**`) line. -/
def successLinesLoop (capture : Bool) : List (List Char) → List (List Char)
  | [] => []
  | line :: rest =>
    if containsSub (line.map asciiLower) "success looks like".data then
      successLinesLoop true rest
    else if capture then
      if "#".data.isPrefixOf line || "**".data.isPrefixOf line then []
      else line :: successLinesLoop capture rest
    else successLinesLoop false rest

/-- Join collected lines with newlines and trim (`"\n".join(...).strip()`). -/
def joinLines (ls : List (List Char)) : List Char :=
  match ls with
  | [] => []
  | l :: rest => l ++ (rest.flatMap (fun x => '\n' :: x))

structure SummarizeOut where
  jobSummary : List Char
  successCriteria : List Char
  errors : List String

/-- `generate_job_summary` from `nodes/summarize.py`; `llmResponse = none`
models the completion call raising (the appended message elides `str(e)`). -/
def generateJobSummary (segmented : SegDict) (errors0 : List String)
    (llmResponse : Option (List Char)) : SummarizeOut :=
  let fullText := sget segmented "full_text" []
  if fullText = [] then
    { jobSummary := [], successCriteria := [],
      errors := errors0 ++ ["No text available for summarization"] }
  else
    match llmResponse with
    | none =>
      { jobSummary := [], successCriteria := [],
        errors := errors0 ++ ["Summary generation failed"] }
    | some resp =>
      let successCriteria :=
        if containsSub (resp.map asciiLower) "success looks like".data then
          pyStrip (joinLines (successLinesLoop false (splitSub ['\n'] resp)))
        else []
      { jobSummary := resp, successCriteria := successCriteria, errors := errors0 }

/-! ## The persist stage (`persist_job_artifacts`)

The database and ChromaDB are external collaborators; four booleans describe
their behavior for the run: whether a db session was supplied, whether the
job row was found, whether an exception was raised inside the db-update
`try`, and whether one was raised inside the ChromaDB `try` (modelled at the
`upsert` call, which in the source happens after `embedding_id` has been
assigned).  The appended messages elide the `str(e)`/id suffixes. -/

structure PersistOut where
  persisted : Bool
  embeddingId : Option String
  errors : List String

def jobIdTruthy : Option String → Bool
  | some s => s != ""
  | none => false

def persistJobArtifacts (jobId : Option String) (jobSummary : List Char)
    (errors0 : List String) (dbPresent jobFound dbUpdateFails chromaFails : Bool) :
    PersistOut :=
  let pe : Bool × List String :=
    if dbPresent && jobIdTruthy jobId then
      if dbUpdateFails then (false, errors0 ++ ["Database update failed"])
      else if jobFound then (true, errors0)
      else (false, errors0 ++ ["Job not found in database"])
    else (false, errors0)
  let ie : Option String × List String :=
    if !jobSummary.isEmpty && jobIdTruthy jobId then
      if chromaFails then
        (some ("job_" ++ (jobId.getD "")), pe.2 ++ ["ChromaDB embedding failed"])
      else (some ("job_" ++ (jobId.getD "")), pe.2)
    else (none, pe.2)
  { persisted := pe.1, embeddingId := ie.1, errors := ie.2 }

/-! ## One whole graph run

`run_job_intake` builds the initial state with `errors = []` and drives the
compiled graph: `ingest → (end | preprocess) → (end | extract) →
(summarize | persist) → persist → END`, per the conditional edges of
`create_job_intake_graph`.  `llmCalls` counts the invocations of the
completion service: `extract_structured_fields` calls it exactly when its
assembled text is non-blank, `generate_job_summary` exactly when
`full_text` is nonempty. -/

structure RunResult where
  stages : List String
  llmCalls : Nat
  jobdoc : JDict
  summary : List Char
  persisted : Bool
  errors : List String

def runJobIntake (jobId : Option String) (jobUrl : String) (rawText : List Char)
    (ext : JDict) (threadId ingestedAt : String)
    (extractResp summResp : Option (List Char))
    (dbPresent jobFound dbUpdateFails chromaFails : Bool) : RunResult :=
  let ing := ingestRawCapture jobUrl rawText ext [] threadId ingestedAt
  if shouldContinueAfterIngest ing.errors = "end" then
    { stages := ["ingest"], llmCalls := 0, jobdoc := [], summary := [],
      persisted := false, errors := ing.errors }
  else
    let pre := preprocessAndSegment rawText ing.errors
    if shouldContinueAfterPreprocess pre = "end" then
      { stages := ["ingest", "preprocess"], llmCalls := 0, jobdoc := [],
        summary := [], persisted := false, errors := pre.errors }
    else
      let exCall : Nat := if pyStrip (textToAnalyze pre.segmented) = [] then 0 else 1
      let ex := extractStructuredFields pre.segmented ing.extensionExtracted
        pre.errors extractResp
      if shouldRunSummary ex.jobdoc = "summarize" then
        let suCall : Nat := if sget pre.segmented "full_text" [] = [] then 0 else 1
        let su := generateJobSummary pre.segmented ex.errors summResp
        let per := persistJobArtifacts jobId su.jobSummary su.errors
          dbPresent jobFound dbUpdateFails chromaFails
        { stages := ["ingest", "preprocess", "extract", "summarize", "persist"],
          llmCalls := exCall + suCall, jobdoc := ex.jobdoc, summary := su.jobSummary,
          persisted := per.persisted, errors := per.errors }
      else
        let per := persistJobArtifacts jobId [] ex.errors
          dbPresent jobFound dbUpdateFails chromaFails
        { stages := ["ingest", "preprocess", "extract", "persist"],
          llmCalls := exCall, jobdoc := ex.jobdoc, summary := [],
          persisted := per.persisted, errors := per.errors }

/-! ## Dictionary lookup/update lemmas -/

theorem jget_jset_self (d : JDict) (k : String) (v : JValue) :
    jget (jset d k v) k = some v := by
  induction d with
  | nil => simp [jget, jset]
  | cons e rest ih =>
    by_cases h : e.1 = k
    · simp [jget, jset, h]
    · simp only [jset, if_neg h]
      simp only [jget, List.find?] at ih ⊢
      rw [show (e.1 == k) = false by simpa using h]
      exact ih

theorem jget_jset_ne (d : JDict) (k k' : String) (v : JValue) (h : k' ≠ k) :
    jget (jset d k v) k' = jget d k' := by
  induction d with
  | nil =>
    simp only [jset, jget, List.find?]
    rw [show (k == k') = false by simpa using fun he => h he.symm]
  | cons e rest ih =>
    by_cases he : e.1 = k
    · simp only [jset, if_pos he, jget, List.find?]
      rw [show (k == k') = false by simpa using fun hx => h hx.symm,
        show (e.1 == k') = false by simpa [he] using fun hx => h hx.symm]
    · simp only [jset, if_neg he, jget, List.find?] at ih ⊢
      cases hx : (e.1 == k') with
      | true => rfl
      | false => exact ih

/-! ## Per-block key-preservation lemmas for `map_comprehensive_to_jobdoc` -/

theorem applyMetadata_jget_other (metadata : JDict) (j : JDict) (k : String)
    (h1 : k ≠ "job_title") (h2 : k ≠ "company_name") (h3 : k ≠ "industry") :
    jget (applyMetadata metadata j) k = jget j k := by
  simp only [applyMetadata]
  split_ifs <;>
    simp only [jget_jset_ne _ _ _ _ h1, jget_jset_ne _ _ _ _ h2,
      jget_jset_ne _ _ _ _ h3]

set_option maxHeartbeats 1000000 in
theorem applyLocation_jget_other (metadata : JDict) (j : JDict) (k : String)
    (h1 : k ≠ "location_city") (h2 : k ≠ "location_country") (h3 : k ≠ "location")
    (h4 : k ≠ "remote_type") :
    jget (applyLocation metadata j) k = jget j k := by
  simp only [applyLocation]
  split_ifs <;>
    simp only [jget_jset_ne _ _ _ _ h1, jget_jset_ne _ _ _ _ h2,
      jget_jset_ne _ _ _ _ h3, jget_jset_ne _ _ _ _ h4]

theorem applyEmployment_jget_other (metadata : JDict) (j : JDict) (k : String)
    (h1 : k ≠ "role_type") :
    jget (applyEmployment metadata j) k = jget j k := by
  simp only [applyEmployment]
  split_ifs <;> simp only [jget_jset_ne _ _ _ _ h1]

theorem applyExperience_jget_other (comp : JDict) (j : JDict) (k : String)
    (h1 : k ≠ "years_experience_min") (h2 : k ≠ "years_experience_max")
    (h3 : k ≠ "seniority") :
    jget (applyExperience comp j) k = jget j k := by
  simp only [applyExperience]
  split_ifs <;>
    simp only [jget_jset_ne _ _ _ _ h1, jget_jset_ne _ _ _ _ h2,
      jget_jset_ne _ _ _ _ h3]

theorem applyCompensation_jget_other (comp : JDict) (j : JDict) (k : String)
    (h1 : k ≠ "salary_min") (h2 : k ≠ "salary_max") (h3 : k ≠ "salary_currency")
    (h4 : k ≠ "salary_period") :
    jget (applyCompensation comp j) k = jget j k := by
  simp only [applyCompensation]
  split_ifs <;>
    simp only [jget_jset_ne _ _ _ _ h1, jget_jset_ne _ _ _ _ h2,
      jget_jset_ne _ _ _ _ h3, jget_jset_ne _ _ _ _ h4]

theorem applySkills_jget_other (comp : JDict) (j : JDict) (k : String)
    (h1 : k ≠ "required_skills") (h2 : k ≠ "preferred_skills") :
    jget (applySkills comp j) k = jget j k := by
  simp only [applySkills]
  split_ifs <;>
    simp only [jget_jset_ne _ _ _ _ h1, jget_jset_ne _ _ _ _ h2]

/-- The merged value of `job_title`: the LLM metadata value whenever it is
truthy, the client value otherwise — confidence is never consulted. -/
theorem mapComprehensive_job_title (comp ext : JDict) :
    jget (mapComprehensiveToJobdoc comp ext) "job_title"
      = (if truthy (jgetD (asObj (jgetD comp "metadata" (JValue.jobj []))) "job_title" JValue.jnull)
         then some (jgetD (asObj (jgetD comp "metadata" (JValue.jobj []))) "job_title" JValue.jnull)
         else jget ext "job_title") := by
  have hc : ("job_title" : String) ≠ "company_name" := by decide
  have hi : ("job_title" : String) ≠ "industry" := by decide
  simp only [mapComprehensiveToJobdoc]
  rw [applySkills_jget_other _ _ _ (by decide) (by decide),
    applyCompensation_jget_other _ _ _ (by decide) (by decide) (by decide) (by decide),
    applyExperience_jget_other _ _ _ (by decide) (by decide) (by decide),
    applyEmployment_jget_other _ _ _ (by decide),
    applyLocation_jget_other _ _ _ (by decide) (by decide) (by decide) (by decide)]
  simp only [applyMetadata]
  split_ifs with hT hC hI <;>
    simp only [jget_jset_ne _ _ _ _ hc, jget_jset_ne _ _ _ _ hi, jget_jset_self]

/-- The merged value of `years_experience_min`: the LLM value whenever the
response carries a non-null `experience_profile.years_required.minimum`,
the client value otherwise. -/
theorem mapComprehensive_years_min (comp ext : JDict) :
    jget (mapComprehensiveToJobdoc comp ext) "years_experience_min"
      = (if jhasNonNull (asObj (jgetD (asObj (jgetD comp "experience_profile" (JValue.jobj [])))
            "years_required" (JValue.jobj []))) "minimum"
         then some (jgetD (asObj (jgetD (asObj (jgetD comp "experience_profile" (JValue.jobj [])))
            "years_required" (JValue.jobj []))) "minimum" JValue.jnull)
         else jget ext "years_experience_min") := by
  have hs : ("years_experience_min" : String) ≠ "seniority" := by decide
  have hm : ("years_experience_min" : String) ≠ "years_experience_max" := by decide
  simp only [mapComprehensiveToJobdoc]
  rw [applySkills_jget_other _ _ _ (by decide) (by decide),
    applyCompensation_jget_other _ _ _ (by decide) (by decide) (by decide) (by decide)]
  have hX : jget (applyEmployment (asObj (jgetD comp "metadata" (JValue.jobj [])))
      (applyLocation (asObj (jgetD comp "metadata" (JValue.jobj [])))
        (applyMetadata (asObj (jgetD comp "metadata" (JValue.jobj []))) ext)))
      "years_experience_min" = jget ext "years_experience_min" := by
    rw [applyEmployment_jget_other _ _ _ (by decide),
      applyLocation_jget_other _ _ _ (by decide) (by decide) (by decide) (by decide),
      applyMetadata_jget_other _ _ _ (by decide) (by decide) (by decide)]
  simp only [applyExperience]
  split_ifs with hMin hMax hSen <;>
    simp only [jget_jset_ne _ _ _ _ hs, jget_jset_ne _ _ _ _ hm, jget_jset_self, hX]

/-- An empty comprehensive analysis leaves the jobdoc exactly at the
client-supplied fields (the degraded path after a parse failure). -/
theorem mapComprehensive_empty (ext : JDict) : mapComprehensiveToJobdoc [] ext = ext := rfl

/-- `should_run_summary` can only route to `summarize` or `persist`. -/
theorem shouldRunSummary_cases (jd : JDict) :
    shouldRunSummary jd = "summarize" ∨ shouldRunSummary jd = "persist" := by
  unfold shouldRunSummary
  split
  · exact Or.inl rfl
  · exact Or.inr rfl

/-! ## Concrete inputs used by counterexamples and witnesses -/

/-- C1 counterexample: the client supplied a title, the LLM supplied a
different one with an overall parsing confidence of 0.2 (so its evidence
entries are tagged `medium`, not `high`). -/
def c1comp : JDict :=
  [("metadata", JValue.jobj [("job_title", JValue.jstr "LLM Title")]),
   ("parsing_confidence", JValue.jobj [("overall_confidence", JValue.jnum (mkRat 1 5))])]

def c1ext : JDict := [("job_title", JValue.jstr "Client Title")]

/-- C1 witness inputs: a response carrying a truthy title and a non-null
years minimum. -/
def c1wcomp : JDict :=
  [("metadata", JValue.jobj [("job_title", JValue.jstr "Platform Engineer")]),
   ("experience_profile", JValue.jobj
     [("years_required", JValue.jobj [("minimum", JValue.jnum 3)])])]

def c1wext : JDict := [("job_title", JValue.jstr "Old Title")]

/-! ## Claim C1 — merge policy -/

/-- C1, the claim as stated, is false: with an existing client value for
`job_title` and an LLM extraction whose nominal confidence is `medium`
(overall confidence 0.2 ≤ 0.7), the merged document carries the LLM value,
not the client value. -/
theorem C1_merge_policy_counterexample :
    jget c1ext "job_title" = some (JValue.jstr "Client Title")
    ∧ (buildExtractionEvidenceFromComprehensive c1comp).map
        (fun e => (e.field, e.confidence, e.source))
      = [("job_title", "medium", "llm_comprehensive")]
    ∧ jget (mapComprehensiveToJobdoc c1comp c1ext) "job_title"
      = some (JValue.jstr "LLM Title") :=
  ⟨rfl, by decide, rfl⟩

/-- C1 (amended): for each field handled by `map_comprehensive_to_jobdoc`,
the LLM value replaces the client value unconditionally whenever the parsed
response supplies one (truthy for `job_title`, non-null for
`years_experience_min`); the client value survives only when the response
supplies none.  Confidence is never consulted by the merge. -/
theorem C1_merge_policy (comp ext : JDict) :
    jget (mapComprehensiveToJobdoc comp ext) "job_title"
      = (if truthy (jgetD (asObj (jgetD comp "metadata" (JValue.jobj []))) "job_title" JValue.jnull)
         then some (jgetD (asObj (jgetD comp "metadata" (JValue.jobj []))) "job_title" JValue.jnull)
         else jget ext "job_title")
    ∧ jget (mapComprehensiveToJobdoc comp ext) "years_experience_min"
      = (if jhasNonNull (asObj (jgetD (asObj (jgetD comp "experience_profile" (JValue.jobj [])))
            "years_required" (JValue.jobj []))) "minimum"
         then some (jgetD (asObj (jgetD (asObj (jgetD comp "experience_profile" (JValue.jobj [])))
            "years_required" (JValue.jobj []))) "minimum" JValue.jnull)
         else jget ext "years_experience_min") :=
  ⟨mapComprehensive_job_title comp ext, mapComprehensive_years_min comp ext⟩

/-! ## Claim C3 — malformed-JSON recoverability -/

/-- C3: whenever the completion response is not valid JSON after
fence-stripping, the extract stage passes the client fields through
unchanged as the merged document, appends the parse-error string, resets
the analysis to empty, and the router still continues the pipeline
(`summarize` or `persist`, never a halt); the stage function is total, so
no exception escapes. -/
theorem C3_malformed_json_recoverable (segmented : SegDict) (ext : JDict)
    (errors0 : List String) (resp : List Char)
    (hText : pyStrip (textToAnalyze segmented) ≠ [])
    (hBad : jsonParse (pyStrip (fenceStrip resp)) = none) :
    (extractStructuredFields segmented ext errors0 (some resp)).jobdoc = ext
    ∧ (extractStructuredFields segmented ext errors0 (some resp)).errors
      = errors0 ++ [parseErrorMsg]
    ∧ (extractStructuredFields segmented ext errors0 (some resp)).comprehensiveAnalysis = []
    ∧ (shouldRunSummary (extractStructuredFields segmented ext errors0 (some resp)).jobdoc
        = "summarize"
      ∨ shouldRunSummary (extractStructuredFields segmented ext errors0 (some resp)).jobdoc
        = "persist") := by
  have hout : extractStructuredFields segmented ext errors0 (some resp)
      = { comprehensiveAnalysis := [],
          extractionEvidence := buildExtractionEvidenceFromComprehensive []
            ++ extensionEvidence ext,
          jobdoc := mapComprehensiveToJobdoc [] ext,
          errors := errors0 ++ [parseErrorMsg] } := by
    unfold extractStructuredFields
    rw [if_neg hText]
    dsimp only
    rw [hBad]
  rw [hout, mapComprehensive_empty]
  exact ⟨rfl, rfl, rfl, shouldRunSummary_cases _⟩

def c3segmented : SegDict := [("full_text", "Senior Rust developer wanted.".data)]
def c3ext : JDict := [("company_name", JValue.jstr "Acme")]
def c3resp : List Char := "Sorry, I could not produce JSON today.".data

set_option maxRecDepth 20000 in
theorem C3_malformed_json_recoverable_witness :
    (pyStrip (textToAnalyze c3segmented) ≠ []
      ∧ jsonParse (pyStrip (fenceStrip c3resp)) = none)
    ∧ (extractStructuredFields c3segmented c3ext ["earlier error"] (some c3resp)).jobdoc = c3ext
    ∧ (extractStructuredFields c3segmented c3ext ["earlier error"] (some c3resp)).errors
      = ["earlier error"] ++ [parseErrorMsg] :=
  ⟨⟨by decide, rfl⟩,
    (C3_malformed_json_recoverable c3segmented c3ext ["earlier error"] c3resp
      (by decide) rfl).1,
    (C3_malformed_json_recoverable c3segmented c3ext ["earlier error"] c3resp
      (by decide) rfl).2.1⟩

/-! ## Claim C9 — errors are append-only -/

/-- C9: each of the five stage functions returns an errors list that
extends the incoming one — the input is always a prefix of the output. -/
theorem C9_errors_append_only :
    (∀ jobUrl rawText ext errors0 tid ts,
      errors0 <+: (ingestRawCapture jobUrl rawText ext errors0 tid ts).errors)
    ∧ (∀ rawText errors0, errors0 <+: (preprocessAndSegment rawText errors0).errors)
    ∧ (∀ segmented ext errors0 resp,
      errors0 <+: (extractStructuredFields segmented ext errors0 resp).errors)
    ∧ (∀ segmented errors0 resp,
      errors0 <+: (generateJobSummary segmented errors0 resp).errors)
    ∧ (∀ jobId jobSummary errors0 dbp jf dbf chf,
      errors0 <+: (persistJobArtifacts jobId jobSummary errors0 dbp jf dbf chf).errors) := by
  refine ⟨?_, ?_, ?_, ?_, ?_⟩
  · intro jobUrl rawText ext errors0 tid ts
    unfold ingestRawCapture
    split_ifs <;> simp [List.append_assoc]
  · intro rawText errors0
    unfold preprocessAndSegment
    dsimp only
    split_ifs <;> simp
  · intro segmented ext errors0 resp
    unfold extractStructuredFields
    dsimp only
    split_ifs
    · simp
    · cases resp with
      | none => simp
      | some r =>
        dsimp only
        rcases jsonParse (pyStrip (fenceStrip r)) with _ | v
        · simp
        · cases v <;> simp
  · intro segmented errors0 resp
    unfold generateJobSummary
    dsimp only
    split_ifs
    · simp
    · cases resp <;> simp
  · intro jobId jobSummary errors0 dbp jf dbf chf
    unfold persistJobArtifacts
    dsimp only
    split_ifs <;> simp [List.append_assoc]

/-! ## Claims C5 and C6 — cleaning steps and section count -/

theorem collapseWSAux_no_nl (b : Bool) (l : List Char) : '\n' ∉ collapseWSAux b l := by
  induction l generalizing b with
  | nil => simp [collapseWSAux]
  | cons c cs ih =>
    by_cases h : pyIsSpace c = true
    · cases b <;>
        simp only [collapseWSAux, h, if_true, if_false, Bool.true_eq, reduceIte] <;>
        [skip; exact ih true] <;>
        intro hmem <;>
        rcases List.mem_cons.1 hmem with h1 | h1
      · exact absurd h1.symm (by decide)
      · exact ih true h1
    · simp only [collapseWSAux, h, Bool.false_eq_true, if_false]
      intro hmem
      rcases List.mem_cons.1 hmem with h1 | h1
      · subst h1
        simp [pyIsSpace] at h
      · exact ih false h1

theorem collapseWS_no_nl (l : List Char) : '\n' ∉ collapseWS l :=
  collapseWSAux_no_nl false l

theorem collapseNLAux_nl_free {l : List Char} (h : '\n' ∉ l) :
    collapseNLAux 0 l = l := by
  induction l with
  | nil => rfl
  | cons c cs ih =>
    have hc : ¬(c = '\n') := fun he => h (he ▸ List.mem_cons_self c cs)
    simp [collapseNLAux, hc, emitNLRun, ih (fun hm => h (List.mem_cons_of_mem c hm))]

theorem collapseNL_nl_free {l : List Char} (h : '\n' ∉ l) : collapseNL l = l :=
  collapseNLAux_nl_free h

theorem removePhrasesAux_subset (fuel : Nat) (l : List Char) :
    removePhrasesAux fuel l ⊆ l := by
  induction fuel generalizing l with
  | zero => simp [removePhrasesAux]
  | succ fuel ih =>
    intro c hc
    simp only [removePhrasesAux] at hc
    rcases hm : chromeMatch l with _ | n
    · rw [hm] at hc
      cases l with
      | nil => simpa using hc
      | cons a as =>
        rcases List.mem_cons.1 hc with h1 | h1
        · exact h1 ▸ List.mem_cons_self a as
        · exact List.mem_cons_of_mem a (ih as h1)
    · rw [hm] at hc
      exact List.drop_subset n l (ih _ hc)

theorem removePhrases_subset (l : List Char) : removePhrases l ⊆ l :=
  removePhrasesAux_subset _ l

theorem dropTrailingWS_pref (l : List Char) : dropTrailingWS l <+: l := by
  induction l with
  | nil => exact List.prefix_refl _
  | cons c cs ih =>
    simp only [dropTrailingWS]
    split_ifs with h
    · exact List.nil_prefix
    · exact List.cons_prefix_cons.2 ⟨rfl, ih⟩

theorem pyStrip_subset (l : List Char) : pyStrip l ⊆ l := by
  intro c hc
  have h1 := (dropTrailingWS_pref (l.dropWhile pyIsSpace)).sublist.subset hc
  exact (List.dropWhile_sublist pyIsSpace (l := l)).subset h1

/-- C5 (amended): the whitespace-normalization step collapses every
whitespace run — newlines included — to a single space, so the 3+-newline
collapse that follows it never fires (it is the identity on the already
collapsed text), and the cleaned text never contains a newline at all. -/
theorem C5_cleaning_steps (t : List Char) :
    collapseNL (collapseWS (htmlUnescape t)) = collapseWS (htmlUnescape t)
    ∧ '\n' ∉ cleanText t := by
  constructor
  · exact collapseNL_nl_free (collapseWS_no_nl _)
  · intro hmem
    have h1 := pyStrip_subset _ hmem
    have h2 := removePhrases_subset _ h1
    rw [collapseNL_nl_free (collapseWS_no_nl _)] at h2
    exact collapseWS_no_nl _ h2

set_option maxRecDepth 100000 in
/-- C5, the claim as stated, is false: an input with a run of three or more
consecutive newlines cleans to a text with a single space at that position
and no pair of consecutive newlines anywhere. -/
theorem C5_cleaning_steps_counterexample :
    cleanText "First line.\n\n\nSecond line.".data = "First line. Second line.".data
    ∧ containsSub (cleanText "First line.\n\n\nSecond line.".data) "\n\n".data = false :=
  ⟨rfl, rfl⟩

theorem sset_length_le (d : SegDict) (k : String) (v : List Char) :
    (sset d k v).length ≤ d.length + 1 := by
  induction d with
  | nil => simp [sset]
  | cons e rest ih =>
    simp only [sset]
    split_ifs <;> simp only [List.length_cons] <;> omega

theorem recordSections_count (text : List Char) (ms : List (Nat × Nat × String))
    (segs : SegDict) (cnt : Nat) :
    (recordSections text ms segs cnt).1.length + cnt
      ≤ segs.length + (recordSections text ms segs cnt).2 := by
  induction ms generalizing segs cnt with
  | nil => simp [recordSections]
  | cons m rest ih =>
    rcases m with ⟨pos, hlen, name⟩
    simp only [recordSections]
    split_ifs with h1 h2
    · have hs := sset_length_le segs name (sectionContent text pos hlen rest)
      have := ih (sset segs name (sectionContent text pos hlen rest)) (cnt + 1)
      omega
    · exact ih segs cnt
    · exact ih segs cnt

/-- C6 (amended): `section_count` counts recording events — first
recordings and longer-content replacements alike — so it is an upper bound
for the number of named sections (the segment map has one extra entry,
`full_text`); a repeated section name whose longer content replaces the
shorter one makes the count strictly exceed the number of named sections. -/
theorem C6_section_count (text : List Char) :
    (segmentText text).1.length ≤ (segmentText text).2 + 1 := by
  have h := recordSections_count text
    (sortByPos (sectionPatterns.flatMap (fun pn =>
      (patternMatches pn.1 text).map (fun m => (m.1, m.2, pn.2)))))
    [("full_text", text)] 0
  simp only [List.length_singleton] at h
  simp only [segmentText]
  omega

def c6raw : List Char :=
  ("Requirements " ++ String.mk (List.replicate 60 'x') ++
   " Requirements " ++ String.mk (List.replicate 80 'x')).data

set_option maxRecDepth 1000000 in
/-- C6, the claim as stated, is false: a text whose `Requirements` header
matches twice, the second content longer than the first, records one named
section but reports `section_count = 2`. -/
theorem C6_section_count_counterexample :
    ((preprocessAndSegment c6raw []).docStats.map (fun st => st.sectionCount)) = some 2
    ∧ ((preprocessAndSegment c6raw []).segmented.filter
        (fun e => e.1 != "full_text")).length = 1 :=
  ⟨rfl, by decide⟩

/-! ## Claim C2 — end-to-end extraction scenario -/

def c2raw : List Char :=
  ("We are hiring a Backend Engineer to build APIs. Requirements You will " ++
   "need 5+ years of Python experience and strong API design skills for this role.").data

def c2ext : JDict := [("job_title", JValue.jstr "Backend Engineer")]

def c2resp : List Char :=
  "```json\n\x7b\"experience_profile\": \x7b\"years_required\": \x7b\"minimum\": 5\x7d\x7d\x7d\n```".data

def c2out : ExtractOut :=
  extractStructuredFields (preprocessAndSegment c2raw []).segmented c2ext
    (preprocessAndSegment c2raw []).errors (some c2resp)

set_option maxRecDepth 1000000 in
/-- C2, the claim as stated, is false: the evidence list for this scenario
holds exactly one entry — the client-side one, tagged `extension` — because
`build_extraction_evidence_from_comprehensive` only emits entries for
extracted metadata title/company/industry or a requirements count, none of
which this response contains, and the client tag is `extension`, not
`client`. -/
theorem C2_extraction_scenario_counterexample :
    c2out.extractionEvidence.length = 1
    ∧ c2out.extractionEvidence.map (fun e => e.source) = ["extension"] :=
  ⟨by decide, by decide⟩

set_option maxRecDepth 1000000 in
/-- C2 (amended): the merged document keeps the client `job_title`, gains
`years_experience_min = 5` from the LLM, no error is recorded, and the
evidence holds exactly one entry, the client-side `job_title` tagged
`extension` with confidence `medium`. -/
theorem C2_extraction_scenario :
    jget c2out.jobdoc "job_title" = some (JValue.jstr "Backend Engineer")
    ∧ jget c2out.jobdoc "years_experience_min" = some (JValue.jnum 5)
    ∧ c2out.extractionEvidence.map (fun e => (e.field, e.confidence, e.source))
      = [("job_title", "medium", "extension")]
    ∧ c2out.errors = [] :=
  ⟨rfl, rfl, by decide, rfl⟩

/-! ## Claims C10 and C7 — routing, unreachability and LLM-call counting -/

theorem mem_dropWhile_of_not {p : Char → Bool} {c : Char} {l : List Char}
    (h : p c = false) (hm : c ∈ l) : c ∈ l.dropWhile p := by
  induction l with
  | nil => simp at hm
  | cons a as ih =>
    by_cases ha : p a = true
    · simp only [List.dropWhile_cons, ha, if_true]
      rcases List.mem_cons.1 hm with h1 | h1
      · subst h1
        rw [ha] at h
        cases h
      · exact ih h1
    · simp only [List.dropWhile_cons, ha, if_false]
      exact hm

theorem mem_dropTrailingWS {c : Char} {l : List Char}
    (h : pyIsSpace c = false) (hm : c ∈ l) : c ∈ dropTrailingWS l := by
  induction l with
  | nil => simp at hm
  | cons a as ih =>
    simp only [dropTrailingWS]
    rcases List.mem_cons.1 hm with h1 | h1
    · subst h1
      split_ifs with hcond
      · rw [h] at hcond
        simp at hcond
      · exact List.mem_cons_self _ _
    · have hr := ih h1
      have hne : dropTrailingWS as ≠ [] := List.ne_nil_of_mem hr
      split_ifs with hcond
      · simp only [Bool.and_eq_true, decide_eq_true_eq] at hcond
        exact absurd hcond.1 hne
      · exact List.mem_cons_of_mem _ hr

theorem pyStrip_ne_nil_of_mem {c : Char} {l : List Char}
    (h : pyIsSpace c = false) (hm : c ∈ l) : pyStrip l ≠ [] :=
  List.ne_nil_of_mem (mem_dropTrailingWS h (mem_dropWhile_of_not h hm))

theorem dropWhile_head?_not {p : Char → Bool} {l : List Char} {c : Char}
    (h : (l.dropWhile p).head? = some c) : p c = false := by
  induction l with
  | nil => simp at h
  | cons a as ih =>
    by_cases ha : p a = true
    · simp only [List.dropWhile_cons, ha, if_true] at h
      exact ih h
    · have hpa : p a = false := by simpa using ha
      simp [List.dropWhile_cons, hpa] at h
      subst h
      exact hpa

theorem dropTrailingWS_head? {l : List Char} (h : dropTrailingWS l ≠ []) :
    (dropTrailingWS l).head? = l.head? := by
  rcases dropTrailingWS_pref l with ⟨t, ht⟩
  cases hd : dropTrailingWS l with
  | nil => exact absurd hd h
  | cons a as =>
    rw [hd] at ht
    rw [← ht]
    rfl

theorem pyStrip_head?_not_space {l : List Char} {c : Char}
    (h : (pyStrip l).head? = some c) : pyIsSpace c = false := by
  have hne : pyStrip l ≠ [] := by
    intro h0
    rw [h0] at h
    cases h
  unfold pyStrip at h hne
  rw [dropTrailingWS_head? hne] at h
  exact dropWhile_head?_not h

theorem cleanText_head?_not_space {t : List Char} {c : Char}
    (h : (cleanText t).head? = some c) : pyIsSpace c = false :=
  pyStrip_head?_not_space h

theorem sgetOpt_sset_ne (d : SegDict) (k k' : String) (v : List Char) (h : k' ≠ k) :
    sgetOpt (sset d k v) k' = sgetOpt d k' := by
  induction d with
  | nil =>
    simp only [sset, sgetOpt, List.find?]
    rw [show (decide (k = k')) = false by simpa using fun he => h he.symm]
  | cons e rest ih =>
    by_cases he : e.1 = k
    · simp only [sset, if_pos he, sgetOpt, List.find?]
      rw [show (decide (k = k')) = false by simpa using fun hx => h hx.symm,
        show (decide (e.1 = k')) = false by simpa [he] using fun hx => h hx.symm]
    · simp only [sset, if_neg he, sgetOpt, List.find?] at ih ⊢
      cases hx : (decide (e.1 = k')) with
      | true => rfl
      | false => exact ih

theorem recordSections_sget_other (text : List Char) (k : String)
    (d : List Char) :
    ∀ (ms : List (Nat × Nat × String)) (segs : SegDict) (cnt : Nat),
    (∀ m ∈ ms, m.2.2 ≠ k) →
    sget (recordSections text ms segs cnt).1 k d = sget segs k d := by
  intro ms
  induction ms with
  | nil => intro segs cnt _; rfl
  | cons m rest ih =>
    intro segs cnt hall
    rcases m with ⟨pos, hlen, name⟩
    have hname : name ≠ k := hall _ (List.mem_cons_self _ _)
    have hrest : ∀ m ∈ rest, m.2.2 ≠ k := fun m hm => hall m (List.mem_cons_of_mem _ hm)
    simp only [recordSections]
    split_ifs with h1 h2
    · rw [ih _ _ hrest]
      simp only [sget, sgetOpt_sset_ne _ _ _ _ (fun he => hname he.symm)]
    · exact ih _ _ hrest
    · exact ih _ _ hrest

theorem mem_insertByPos {x y : Nat × Nat × String} {l : List (Nat × Nat × String)}
    (h : y ∈ insertByPos x l) : y = x ∨ y ∈ l := by
  induction l with
  | nil => simpa [insertByPos] using h
  | cons a as ih =>
    simp only [insertByPos] at h
    split_ifs at h
    · rcases List.mem_cons.1 h with h1 | h1
      · exact Or.inr (h1 ▸ List.mem_cons_self _ _)
      · rcases ih h1 with h2 | h2
        · exact Or.inl h2
        · exact Or.inr (List.mem_cons_of_mem _ h2)
    · rcases List.mem_cons.1 h with h1 | h1
      · exact Or.inl h1
      · exact Or.inr h1

theorem mem_sortByPos {y : Nat × Nat × String} {l : List (Nat × Nat × String)}
    (h : y ∈ sortByPos l) : y ∈ l := by
  induction l with
  | nil => simpa [sortByPos] using h
  | cons a as ih =>
    simp only [sortByPos] at h
    rcases mem_insertByPos h with h1 | h1
    · exact h1 ▸ List.mem_cons_self _ _
    · exact List.mem_cons_of_mem _ (ih h1)

/-- `full_text` always carries the (cleaned) input text: no section name can
overwrite it. -/
theorem segmentText_full_text (text : List Char) :
    sget (segmentText text).1 "full_text" [] = text := by
  unfold segmentText
  rw [recordSections_sget_other]
  · rfl
  · intro m hm
    have hmem := mem_sortByPos hm
    simp only [List.mem_flatMap, List.mem_map] at hmem
    obtain ⟨pn, hpn, m', _, hm'⟩ := hmem
    have : m.2.2 = pn.2 := by rw [← hm']
    rw [this]
    fin_cases hpn <;> decide

theorem preprocess_full_text (rawText : List Char) (e : List String) :
    sget (preprocessAndSegment rawText e).segmented "full_text" [] = cleanText rawText := by
  unfold preprocessAndSegment
  dsimp only
  split_ifs with h
  · rw [h]
    rfl
  · exact segmentText_full_text _

/-- When the orchestrator routes `preprocess → extract`, the cleaned text is
nonempty (its length is at least 100) and its errors are unchanged. -/
theorem extract_route_clean (rawText : List Char) (e : List String)
    (h : shouldContinueAfterPreprocess (preprocessAndSegment rawText e) = "extract") :
    cleanText rawText ≠ [] ∧ (preprocessAndSegment rawText e).errors = e := by
  have h100 : ¬(statsCharCount (preprocessAndSegment rawText e) < 100) := by
    intro hlt
    unfold shouldContinueAfterPreprocess at h
    rw [if_pos hlt] at h
    exact absurd h (by decide)
  constructor
  · intro hnil
    apply h100
    unfold preprocessAndSegment
    dsimp only
    rw [if_pos hnil]
    simp [statsCharCount]
  · unfold preprocessAndSegment
    dsimp only
    split_ifs with hnil
    · exfalso
      apply h100
      unfold preprocessAndSegment
      dsimp only
      rw [if_pos hnil]
      simp [statsCharCount]
    · rfl

/-- The key unreachability fact: after a `preprocess → extract` transition
the text assembled for extraction is never blank, because it ends with a
prefix of the cleaned `full_text`, which is a nonempty stripped string. -/
theorem extractText_nonblank (rawText : List Char) (e : List String)
    (h : shouldContinueAfterPreprocess (preprocessAndSegment rawText e) = "extract") :
    pyStrip (textToAnalyze (preprocessAndSegment rawText e).segmented) ≠ [] := by
  have hclean := (extract_route_clean rawText e h).1
  cases hc : cleanText rawText with
  | nil => exact absurd hc hclean
  | cons a t =>
    have hhead : (cleanText rawText).head? = some a := by rw [hc]; rfl
    have ha : pyIsSpace a = false := cleanText_head?_not_space hhead
    have hmem : a ∈ textToAnalyze (preprocessAndSegment rawText e).segmented := by
      unfold textToAnalyze
      apply List.mem_append_right
      rw [preprocess_full_text, hc]
      show a ∈ (a :: t).take 8000
      rw [show (8000 : Nat) = 7999 + 1 from rfl, List.take_succ_cons]
      exact List.mem_cons_self _ _
    exact pyStrip_ne_nil_of_mem ha hmem

/-- C10: the `no text available` short-circuit of the extract stage is
unreachable in a graph run — whenever the orchestrator routes
`preprocess → extract`, the assembled extraction text is non-blank and the
stage never appends its short-circuit error. -/
theorem C10_no_text_branch_unreachable (rawText : List Char) (e : List String)
    (h : shouldContinueAfterPreprocess (preprocessAndSegment rawText e) = "extract") :
    pyStrip (textToAnalyze (preprocessAndSegment rawText e).segmented) ≠ []
    ∧ ∀ (ext : JDict) (resp : Option (List Char)),
      noTextMsg ∉ (extractStructuredFields
        (preprocessAndSegment rawText e).segmented ext [] resp).errors := by
  have hne := extractText_nonblank rawText e h
  refine ⟨hne, ?_⟩
  intro ext resp
  unfold extractStructuredFields
  rw [if_neg hne]
  dsimp only
  cases resp with
  | none => simp [noTextMsg, llmFailedMsg]
  | some r =>
    rcases hjp : jsonParse (pyStrip (fenceStrip r)) with _ | v
    · simp [hjp, noTextMsg, parseErrorMsg]
    · cases v <;> simp [hjp, noTextMsg, llmFailedMsg]

def c10raw : List Char :=
  ("This is a sufficiently long job posting description used to exercise " ++
   "the preprocessing stage of the intake pipeline in tests.").data

set_option maxRecDepth 1000000 in
theorem C10_no_text_branch_unreachable_witness :
    shouldContinueAfterPreprocess (preprocessAndSegment c10raw []) = "extract"
    ∧ pyStrip (textToAnalyze (preprocessAndSegment c10raw []).segmented) ≠ [] :=
  ⟨rfl, (C10_no_text_branch_unreachable c10raw [] rfl).1⟩

/-- C7: (a) the extract stage routes to `summarize` exactly when the merged
document holds a nonempty string title or a nonempty skills list (for the
well-typed shapes those fields can take), and (b) a run whose merged
document routes to `persist` skips `summarize`, traverses
`ingest, preprocess, extract, persist`, and invokes the completion service
exactly once — for extraction. -/
theorem C7_summarize_skip :
    (∀ jd : JDict,
      (jget jd "job_title" = none ∨ ∃ s, jget jd "job_title" = some (JValue.jstr s)) →
      (jget jd "required_skills" = none
        ∨ ∃ l, jget jd "required_skills" = some (JValue.jarr l)) →
      (shouldRunSummary jd = "summarize" ↔
        ((∃ s, jget jd "job_title" = some (JValue.jstr s) ∧ s ≠ "")
         ∨ (∃ l, jget jd "required_skills" = some (JValue.jarr l) ∧ l ≠ []))))
    ∧ (∀ (jobId : Option String) (jobUrl : String) (rawText : List Char) (ext : JDict)
        (threadId ingestedAt : String) (extractResp summResp : Option (List Char))
        (dbPresent jobFound dbUpdateFails chromaFails : Bool),
      (ingestRawCapture jobUrl rawText ext [] threadId ingestedAt).errors = [] →
      shouldContinueAfterPreprocess (preprocessAndSegment rawText []) = "extract" →
      shouldRunSummary (extractStructuredFields
        (preprocessAndSegment rawText []).segmented ext [] extractResp).jobdoc
        = "persist" →
      (runJobIntake jobId jobUrl rawText ext threadId ingestedAt extractResp summResp
        dbPresent jobFound dbUpdateFails chromaFails).stages
        = ["ingest", "preprocess", "extract", "persist"]
      ∧ (runJobIntake jobId jobUrl rawText ext threadId ingestedAt extractResp summResp
        dbPresent jobFound dbUpdateFails chromaFails).llmCalls = 1) := by
  constructor
  · intro jd h1 h2
    have hps : ("persist" : String) ≠ "summarize" := by decide
    rcases h1 with h1 | ⟨s, h1⟩ <;> rcases h2 with h2 | ⟨l2, h2⟩ <;>
      (simp [shouldRunSummary, jgetD, h1, h2, truthy, hps, bne_iff_ne]; try tauto)
  · intro jobId jobUrl rawText ext threadId ingestedAt extractResp summResp
      dbPresent jobFound dbUpdateFails chromaFails hIng hPre hRoute
    have hPreErrors : (preprocessAndSegment rawText []).errors = [] :=
      (extract_route_clean rawText [] hPre).2
    have hText := extractText_nonblank rawText [] hPre
    have hIngRoute : shouldContinueAfterIngest
        (ingestRawCapture jobUrl rawText ext [] threadId ingestedAt).errors
        = "preprocess" := by
      rw [hIng]
      rfl
    have hExtValue : (ingestRawCapture jobUrl rawText ext [] threadId ingestedAt).extensionExtracted = ext := rfl
    simp only [runJobIntake]
    rw [hIngRoute]
    rw [if_neg (by decide : ¬("preprocess" : String) = "end")]
    rw [hExtValue, hIng, hPre]
    rw [if_neg (by decide : ¬("extract" : String) = "end")]
    rw [hPreErrors, hRoute]
    rw [if_neg (by decide : ¬("persist" : String) = "summarize")]
    rw [if_neg hText]
    exact ⟨rfl, rfl⟩

def c7raw : List Char :=
  ("An opening for a software generalist with broad interests and a record " ++
   "of shipping reliable systems in small collaborative teams.").data

set_option maxRecDepth 1000000 in
theorem C7_summarize_skip_witness :
    ((ingestRawCapture "https://example.com/job" c7raw [] [] "tid" "now").errors = []
      ∧ shouldContinueAfterPreprocess (preprocessAndSegment c7raw []) = "extract"
      ∧ shouldRunSummary (extractStructuredFields
          (preprocessAndSegment c7raw []).segmented [] [] (some "no json here".data)).jobdoc
        = "persist")
    ∧ (runJobIntake none "https://example.com/job" c7raw [] "tid" "now"
        (some "no json here".data) none false false false false).stages
      = ["ingest", "preprocess", "extract", "persist"]
    ∧ (runJobIntake none "https://example.com/job" c7raw [] "tid" "now"
        (some "no json here".data) none false false false false).llmCalls = 1 :=
  ⟨⟨rfl, rfl, rfl⟩,
    (C7_summarize_skip.2 none "https://example.com/job" c7raw [] "tid" "now"
      (some "no json here".data) none false false false false rfl rfl rfl).1,
    (C7_summarize_skip.2 none "https://example.com/job" c7raw [] "tid" "now"
      (some "no json here".data) none false false false false rfl rfl rfl).2⟩

/-! ## Claim C4 — segmentation idempotence

Cleaning is not idempotent in general: stripping a chrome phrase leaves the
two single spaces around it adjacent, and a second cleaning collapses them.
It is idempotent when the whitespace-normalized text contains no phrase
occurrence (and no ampersand).  The development below characterizes the
texts fixed by each cleaning step. -/

/-- A text is whitespace-normal when every whitespace character in it is a
plain space and no two adjacent characters are both whitespace — exactly
the texts fixed by `collapseWS`. -/
def wsNormal : List Char → Bool
  | [] => true
  | [c] => !pyIsSpace c || c = ' '
  | c :: d :: rest => (!pyIsSpace c || (c = ' ' && !pyIsSpace d)) && wsNormal (d :: rest)

theorem wsNormal_tail {c : Char} {cs : List Char} (h : wsNormal (c :: cs) = true) :
    wsNormal cs = true := by
  cases cs with
  | nil => rfl
  | cons d ds =>
    simp only [wsNormal, Bool.and_eq_true] at h
    exact h.2

theorem wsNormal_cons_nonspace {c : Char} {l : List Char}
    (h : pyIsSpace c = false) : wsNormal (c :: l) = wsNormal l := by
  cases l with
  | nil => simp [wsNormal, h]
  | cons d ds => simp [wsNormal, h]

theorem collapseWSAux_norm (l : List Char) :
    wsNormal (collapseWSAux false l) = true
    ∧ wsNormal (collapseWSAux true l) = true
    ∧ (∀ c, (collapseWSAux true l).head? = some c → pyIsSpace c = false) := by
  induction l with
  | nil => exact ⟨rfl, rfl, fun c h => by cases h⟩
  | cons c cs ih =>
    by_cases hc : pyIsSpace c = true
    · refine ⟨?_, ?_, ?_⟩
      · simp only [collapseWSAux, hc, if_true]
        cases hx : collapseWSAux true cs with
        | nil => rfl
        | cons d ds =>
          have hd : pyIsSpace d = false := by
            apply ih.2.2
            rw [hx]
            rfl
          simp only [wsNormal, Bool.and_eq_true]
          constructor
          · rw [hd]
            decide
          · rw [← hx]
            exact ih.2.1
      · simp only [collapseWSAux, hc, if_true]
        exact ih.2.1
      · intro d hd
        simp only [collapseWSAux, hc, if_true] at hd
        exact ih.2.2 d hd
    · have hc' : pyIsSpace c = false := by simpa using hc
      refine ⟨?_, ?_, ?_⟩
      · simp only [collapseWSAux, hc', Bool.false_eq_true, if_false]
        rw [wsNormal_cons_nonspace hc']
        exact ih.1
      · simp only [collapseWSAux, hc', Bool.false_eq_true, if_false]
        rw [wsNormal_cons_nonspace hc']
        exact ih.1
      · intro d hd
        simp only [collapseWSAux, hc', Bool.false_eq_true, if_false,
          List.head?_cons, Option.some.injEq] at hd
        subst hd
        exact hc'

theorem wsNormal_collapseWS (l : List Char) : wsNormal (collapseWS l) = true :=
  (collapseWSAux_norm l).1

theorem collapseWS_of_wsNormal : ∀ {l : List Char}, wsNormal l = true → collapseWS l = l := by
  intro l
  induction l with
  | nil => intro _; rfl
  | cons c cs ih =>
    intro h
    by_cases hc : pyIsSpace c = true
    · cases cs with
      | nil =>
        have hce : c = ' ' := by
          simp only [wsNormal, hc, Bool.not_true, Bool.false_or,
            decide_eq_true_eq] at h
          exact h
        subst hce
        rfl
      | cons d ds =>
        have hcnd := h
        simp only [wsNormal, Bool.and_eq_true] at hcnd
        have h1 := hcnd.1
        rw [hc] at h1
        simp only [Bool.not_true, Bool.false_or, Bool.and_eq_true,
          decide_eq_true_eq] at h1
        obtain ⟨hce, hdns⟩ := h1
        have hd : pyIsSpace d = false := by simpa using hdns
        have ihtail : collapseWSAux false (d :: ds) = d :: ds := ih (wsNormal_tail h)
        subst hce
        show ' ' :: collapseWSAux true (d :: ds) = ' ' :: d :: ds
        have hsw : collapseWSAux true (d :: ds) = collapseWSAux false (d :: ds) := by
          simp [collapseWSAux, hd]
        rw [hsw, ihtail]
    · have hc' : pyIsSpace c = false := by simpa using hc
      have ihtail : collapseWSAux false cs = cs := ih (wsNormal_tail h)
      show collapseWSAux false (c :: cs) = c :: cs
      simp [collapseWSAux, hc', ihtail]

theorem wsNormal_append_right {a b : List Char}
    (h : wsNormal (a ++ b) = true) : wsNormal b = true := by
  induction a with
  | nil => exact h
  | cons c a' ih => exact ih (wsNormal_tail h)

theorem wsNormal_append_left {a b : List Char}
    (h : wsNormal (a ++ b) = true) : wsNormal a = true := by
  induction a with
  | nil => rfl
  | cons c a' ih =>
    cases a' with
    | nil =>
      cases b with
      | nil => exact h
      | cons d bs =>
        simp only [List.cons_append, List.nil_append, wsNormal,
          Bool.and_eq_true] at h
        rcases Bool.or_eq_true_iff.1 h.1 with h1 | h1
        · simp [wsNormal, h1]
        · simp only [Bool.and_eq_true] at h1
          simp [wsNormal, h1.1]
    | cons e a'' =>
      have htail : wsNormal ((e :: a'') ++ b) = true := wsNormal_tail h
      have hcond : (!pyIsSpace c || (c = ' ' && !pyIsSpace e)) = true := by
        have h' := h
        simp only [List.cons_append, wsNormal, Bool.and_eq_true] at h'
        exact h'.1
      simp only [wsNormal, Bool.and_eq_true]
      exact ⟨hcond, ih htail⟩

theorem wsNormal_pyStrip {l : List Char} (h : wsNormal l = true) :
    wsNormal (pyStrip l) = true := by
  rcases List.dropWhile_suffix (l := l) pyIsSpace with ⟨u, hu⟩
  rcases dropTrailingWS_pref (l.dropWhile pyIsSpace) with ⟨v, hv⟩
  have h1 : wsNormal (l.dropWhile pyIsSpace) = true :=
    wsNormal_append_right (hu ▸ h)
  exact wsNormal_append_left (a := pyStrip l) (b := v) (hv ▸ h1)

theorem mem_collapseWSAux {x : Char} :
    ∀ (b : Bool) (l : List Char), x ∈ collapseWSAux b l → x ∈ l ∨ x = ' ' := by
  intro b l
  induction l generalizing b with
  | nil => intro h; simp [collapseWSAux] at h
  | cons c cs ih =>
    intro h
    by_cases hc : pyIsSpace c = true
    · cases b with
      | true =>
        simp only [collapseWSAux, hc, if_true] at h
        rcases ih true h with h1 | h1
        · exact Or.inl (List.mem_cons_of_mem _ h1)
        · exact Or.inr h1
      | false =>
        simp only [collapseWSAux, hc, if_true] at h
        rcases List.mem_cons.1 h with h1 | h1
        · exact Or.inr h1
        · rcases ih true h1 with h2 | h2
          · exact Or.inl (List.mem_cons_of_mem _ h2)
          · exact Or.inr h2
    · have hc' : pyIsSpace c = false := by simpa using hc
      simp only [collapseWSAux, hc', Bool.false_eq_true, if_false] at h
      rcases List.mem_cons.1 h with h1 | h1
      · exact Or.inl (h1 ▸ List.mem_cons_self _ _)
      · rcases ih false h1 with h2 | h2
        · exact Or.inl (List.mem_cons_of_mem _ h2)
        · exact Or.inr h2

theorem mem_collapseWS {x : Char} {l : List Char} (h : x ∈ collapseWS l) :
    x ∈ l ∨ x = ' ' :=
  mem_collapseWSAux false l h

theorem dropTrailingWS_idem (l : List Char) :
    dropTrailingWS (dropTrailingWS l) = dropTrailingWS l := by
  induction l with
  | nil => rfl
  | cons c cs ih =>
    simp only [dropTrailingWS]
    split_ifs with hcond
    · rfl
    · simp only [dropTrailingWS, ih]
      rw [if_neg hcond]

theorem pyStrip_idem (l : List Char) : pyStrip (pyStrip l) = pyStrip l := by
  have hdw : (pyStrip l).dropWhile pyIsSpace = pyStrip l := by
    cases hp : pyStrip l with
    | nil => rfl
    | cons a t =>
      have ha : pyIsSpace a = false := pyStrip_head?_not_space (by rw [hp]; rfl)
      simp [List.dropWhile_cons, ha]
  show dropTrailingWS ((pyStrip l).dropWhile pyIsSpace) = pyStrip l
  rw [hdw]
  exact dropTrailingWS_idem _

theorem chromeMatch_nil : chromeMatch [] = none := rfl

theorem removePhrasesAux_length : ∀ (fuel : Nat) (l : List Char),
    (removePhrasesAux fuel l).length ≤ l.length := by
  intro fuel
  induction fuel with
  | zero => intro l; simp [removePhrasesAux]
  | succ fuel ih =>
    intro l
    simp only [removePhrasesAux]
    cases hm : chromeMatch l with
    | some n =>
      calc (removePhrasesAux fuel (l.drop n)).length
          ≤ (l.drop n).length := ih _
        _ ≤ l.length := by simp [List.length_drop]
    | none =>
      cases l with
      | nil => simp
      | cons c cs =>
        simpa using Nat.succ_le_succ (ih cs)

theorem removePhrases_length_lt {l : List Char} {n : Nat}
    (hm : chromeMatch l = some n) : (removePhrases l).length < l.length := by
  obtain ⟨h9, hle⟩ := chromeMatch_bounds hm
  unfold removePhrases
  simp only [removePhrasesAux, hm]
  calc (removePhrasesAux l.length (l.drop n)).length
      ≤ (l.drop n).length := removePhrasesAux_length _ _
    _ = l.length - n := by simp [List.length_drop]
    _ < l.length := by omega

theorem removePhrases_fix_head {l : List Char} (h : removePhrases l = l) :
    chromeMatch l = none := by
  cases hm : chromeMatch l with
  | none => rfl
  | some n =>
    have hlt := removePhrases_length_lt hm
    rw [h] at hlt
    exact absurd hlt (lt_irrefl _)

theorem removePhrases_fix_noOccur : ∀ (l : List Char), removePhrases l = l →
    ∀ i, chromeMatch (l.drop i) = none := by
  intro l
  induction l with
  | nil =>
    intro _ i
    rw [List.drop_nil]
    exact chromeMatch_nil
  | cons c cs ih =>
    intro h i
    have h0 : chromeMatch (c :: cs) = none := removePhrases_fix_head h
    have hstep : removePhrases (c :: cs) = c :: removePhrases cs := by
      unfold removePhrases
      simp only [List.length_cons]
      simp only [removePhrasesAux, h0]
    have hcs : removePhrases cs = cs := by
      rw [hstep] at h
      exact List.cons_injective.eq_iff.1 h
    cases i with
    | zero => exact h0
    | succ j =>
      rw [List.drop_succ_cons]
      exact ih hcs j

theorem removePhrasesAux_of_noOccur : ∀ (fuel : Nat) (l : List Char),
    (∀ i, chromeMatch (l.drop i) = none) → removePhrasesAux fuel l = l := by
  intro fuel
  induction fuel with
  | zero => intro l _; rfl
  | succ fuel ih =>
    intro l hno
    have h0 : chromeMatch l = none := by
      have := hno 0
      rwa [List.drop_zero] at this
    cases l with
    | nil => simp only [removePhrasesAux, chromeMatch_nil]
    | cons c cs =>
      simp only [removePhrasesAux, h0]
      show c :: removePhrasesAux fuel cs = c :: cs
      congr 1
      exact ih cs (fun i => by
        have := hno (i + 1)
        rwa [List.drop_succ_cons] at this)

theorem removePhrases_of_noOccur {l : List Char}
    (hno : ∀ i, chromeMatch (l.drop i) = none) : removePhrases l = l :=
  removePhrasesAux_of_noOccur _ l hno

theorem ciIsPrefix_append {p a : List Char} (b : List Char)
    (h : ciIsPrefix p a = true) : ciIsPrefix p (a ++ b) = true := by
  simp only [ciIsPrefix, decide_eq_true_eq] at h ⊢
  have hlen : p.length ≤ a.length := by
    have := congrArg List.length h
    simpa using this
  rw [List.take_append_of_le_length hlen]
  exact h

theorem chromeMatch_append_none {a b : List Char}
    (h : chromeMatch (a ++ b) = none) : chromeMatch a = none := by
  simp only [chromeMatch, Option.map_eq_none', List.find?_eq_none] at h ⊢
  intro p hp
  intro hpre
  exact h p hp (ciIsPrefix_append b hpre)

theorem noOccur_infix {w c : List Char}
    (hw : ∀ i, chromeMatch (w.drop i) = none) (hinf : c <:+: w) :
    ∀ i, chromeMatch (c.drop i) = none := by
  rcases hinf with ⟨u, v, huv⟩
  intro i
  by_cases hi : i ≤ c.length
  · have hdrop : w.drop (u.length + i) = c.drop i ++ v := by
      rw [← huv, List.append_assoc, List.drop_append, List.drop_append_of_le_length hi]
    have := hw (u.length + i)
    rw [hdrop] at this
    exact chromeMatch_append_none this
  · rw [List.drop_of_length_le (by omega)]
    exact chromeMatch_nil

theorem pyStrip_inf (l : List Char) : pyStrip l <:+: l := by
  rcases List.dropWhile_suffix (l := l) pyIsSpace with ⟨u, hu⟩
  rcases dropTrailingWS_pref (l.dropWhile pyIsSpace) with ⟨v, hv⟩
  exact ⟨u, v, by
    rw [List.append_assoc,
      show pyStrip l = dropTrailingWS (l.dropWhile pyIsSpace) from rfl, hv, hu]⟩

/-- Cleaning is idempotent on inputs without ampersands whose
whitespace-normalized form contains no chrome-phrase occurrence. -/
theorem cleanText_idem (t : List Char) (hAmp : '&' ∉ t)
    (hPh : removePhrases (collapseWS t) = collapseWS t) :
    cleanText (cleanText t) = cleanText t := by
  have hUn : htmlUnescape t = t := by
    unfold htmlUnescape
    rw [if_neg hAmp]
  have hNL : collapseNL (collapseWS t) = collapseWS t :=
    collapseNL_nl_free (collapseWS_no_nl t)
  have hc : cleanText t = pyStrip (collapseWS t) := by
    unfold cleanText
    rw [hUn, hNL, hPh]
  have hAmpW : '&' ∉ collapseWS t := by
    intro hmem
    rcases mem_collapseWS hmem with h1 | h1
    · exact hAmp h1
    · exact absurd h1 (by decide)
  have hAmpC : '&' ∉ cleanText t := by
    rw [hc]
    intro hmem
    exact hAmpW (pyStrip_subset _ hmem)
  have hNLC : '\n' ∉ cleanText t := by
    rw [hc]
    intro hmem
    exact collapseWS_no_nl t (pyStrip_subset _ hmem)
  have hWSC : collapseWS (cleanText t) = cleanText t := by
    rw [hc]
    exact collapseWS_of_wsNormal (wsNormal_pyStrip (wsNormal_collapseWS t))
  have hPhC : removePhrases (cleanText t) = cleanText t := by
    apply removePhrases_of_noOccur
    rw [hc]
    exact noOccur_infix (removePhrases_fix_noOccur _ hPh) (pyStrip_inf _)
  show pyStrip (removePhrases (collapseNL (collapseWS (htmlUnescape (cleanText t)))))
    = cleanText t
  rw [show htmlUnescape (cleanText t) = cleanText t from by
      unfold htmlUnescape
      rw [if_neg hAmpC],
    hWSC, collapseNL_nl_free hNLC, hPhC, hc, pyStrip_idem]

/-- C4: cleaning — and hence the `full_text` of a second segmentation — is
idempotent for inputs without HTML entities whose whitespace-normalized
form contains none of the stripped chrome phrases; the counterexample shows
the general claim fails when a phrase is stripped. -/
theorem C4_segmentation_idempotence (t : List Char) (hAmp : '&' ∉ t)
    (hPh : removePhrases (collapseWS t) = collapseWS t) :
    sget (preprocessAndSegment
        (sget (preprocessAndSegment t []).segmented "full_text" []) []).segmented
      "full_text" []
    = sget (preprocessAndSegment t []).segmented "full_text" [] := by
  rw [preprocess_full_text, preprocess_full_text, cleanText_idem t hAmp hPh]

def c4idem : List Char := "A compact posting describing ordinary work.".data

set_option maxRecDepth 1000000 in
theorem C4_segmentation_idempotence_witness :
    ('&' ∉ c4idem
      ∧ removePhrases (collapseWS c4idem) = collapseWS c4idem)
    ∧ sget (preprocessAndSegment
        (sget (preprocessAndSegment c4idem []).segmented "full_text" []) []).segmented
      "full_text" []
    = sget (preprocessAndSegment c4idem []).segmented "full_text" [] :=
  ⟨⟨by decide, by decide⟩,
    C4_segmentation_idempotence c4idem (by decide) (by decide)⟩

def c4raw : List Char := "Intro show more Outro".data

set_option maxRecDepth 1000000 in
/-- C4, the claim as stated, is false: stripping the chrome phrase
`show more` leaves two adjacent spaces, which a second cleaning collapses,
so the second `full_text` differs from the first. -/
theorem C4_segmentation_idempotence_counterexample :
    sget (preprocessAndSegment c4raw []).segmented "full_text" []
      = "Intro  Outro".data
    ∧ sget (preprocessAndSegment
        (sget (preprocessAndSegment c4raw []).segmented "full_text" []) []).segmented
      "full_text" []
      = "Intro Outro".data
    ∧ "Intro  Outro".data ≠ "Intro Outro".data :=
  ⟨rfl, rfl, by decide⟩

/-! ## Claim C8 — JSON-fence tolerance

The three response shapes the claim compares: a payload wrapped in a
```` ```json ```` fence, wrapped in a bare ```` ``` ```` fence, and sent
bare. -/

/-- What `extract_structured_fields` assigns to `comprehensive_analysis`
before the object check: the JSON parse of the fence-stripped, trimmed
response. -/
def parsedExtraction (resp : List Char) : Option JValue :=
  jsonParse (pyStrip (fenceStrip resp))

def c8wrapJson (p : List Char) : List Char := "```json\n".data ++ p ++ "\n```".data

def c8wrapBare (p : List Char) : List Char := "```\n".data ++ p ++ "\n```".data

def c8payload : List Char := "[\"```\x7b\", \":1\x7d```\"]".data

set_option maxRecDepth 100000 in
/-- C8, the claim as stated, is false: a JSON payload that itself contains
backtick fences parses to a (nonempty) object when sent unfenced — the
fence-stripping cuts out the text between the payload's own backticks —
but to nothing when the same payload is sent inside either fence. -/
theorem C8_fence_tolerance_counterexample :
    parsedExtraction c8payload = some (JValue.jobj [(", ", JValue.jnum 1)])
    ∧ parsedExtraction (c8wrapJson c8payload) = none
    ∧ parsedExtraction (c8wrapBare c8payload) = none :=
  ⟨rfl, rfl, rfl⟩

/-! Occurrence lemmas for the fence-stripping proof. -/

theorem bool_ne_true {b : Bool} (h : b = false) : ¬(b = true) := by
  rw [h]
  exact Bool.false_ne_true

theorem bool_eq_false {b : Bool} (h : ¬(b = true)) : b = false := by
  cases b with
  | false => rfl
  | true => exact absurd rfl h

theorem findSub_eq_none_iff {needle s : List Char} :
    findSub needle s = none ↔ ∀ i, needle.isPrefixOf (s.drop i) = false := by
  induction s with
  | nil =>
    constructor
    · intro h i
      rw [List.drop_nil]
      by_cases hp : needle.isPrefixOf ([] : List Char) = true
      · simp only [findSub, if_pos hp] at h
        cases h
      · exact bool_eq_false hp
    · intro h
      have h0 := h 0
      rw [List.drop_nil] at h0
      simp only [findSub]
      rw [if_neg (bool_ne_true h0)]
  | cons c cs ih =>
    constructor
    · intro h i
      have hsplit : needle.isPrefixOf (c :: cs) = false ∧ findSub needle cs = none := by
        by_cases hp : needle.isPrefixOf (c :: cs) = true
        · simp only [findSub, if_pos hp] at h
          cases h
        · have hp2 : needle.isPrefixOf (c :: cs) = false := bool_eq_false hp
          simp only [findSub, if_neg (bool_ne_true hp2)] at h
          exact ⟨hp2, Option.map_eq_none'.1 h⟩
      cases i with
      | zero =>
        rw [List.drop_zero]
        exact hsplit.1
      | succ j =>
        rw [List.drop_succ_cons]
        exact ih.1 hsplit.2 j
    · intro h
      have h0 := h 0
      rw [List.drop_zero] at h0
      simp only [findSub]
      rw [if_neg (bool_ne_true h0), Option.map_eq_none']
      exact ih.2 (fun j => by
        have := h (j + 1)
        rwa [List.drop_succ_cons] at this)

theorem findSub_zero {needle s : List Char} (hne : needle ≠ [])
    (h : needle.isPrefixOf s = true) : findSub needle s = some 0 := by
  cases s with
  | nil =>
    cases needle with
    | nil => exact absurd rfl hne
    | cons a as => simp [List.isPrefixOf] at h
  | cons c cs =>
    simp only [findSub]
    rw [if_pos h]

/-- The trailing `\n` between a payload and a fence blocks any backtick run
from spanning the boundary: a fence occurrence in `P ++ '\n' :: rest`
starting inside `P` lies entirely inside `P`. -/
theorem fenceBare_isPrefixOf_append {P rest : List Char}
    (h : fenceBare.isPrefixOf (P ++ '\n' :: rest) = true) :
    fenceBare.isPrefixOf P = true := by
  match P with
  | [] => simp [fenceBare, String.data, List.isPrefixOf] at h
  | [a] =>
    simp only [fenceBare, String.data, List.cons_append, List.nil_append,
      List.isPrefixOf, Bool.and_eq_true] at h
    rcases h with ⟨_, h2, _⟩
    exact absurd h2 (by decide)
  | [a, b] =>
    simp only [fenceBare, String.data, List.cons_append, List.nil_append,
      List.isPrefixOf, Bool.and_eq_true] at h
    rcases h with ⟨_, _, h3, _⟩
    exact absurd h3 (by decide)
  | a :: b :: c :: t =>
    simp only [fenceBare, String.data, List.cons_append, List.isPrefixOf,
      Bool.and_eq_true] at h ⊢
    exact ⟨h.1, h.2.1, h.2.2.1, trivial⟩

/-- `fenceBare` is a prefix of `fenceJson`, so a `fenceJson` match is also a
`fenceBare` match. -/
theorem fenceBare_of_fenceJson {s : List Char}
    (h : fenceJson.isPrefixOf s = true) : fenceBare.isPrefixOf s = true := by
  rw [List.isPrefixOf_iff_prefix] at h ⊢
  exact List.IsPrefix.trans (by decide) h

theorem findSub_json_tail {P : List Char}
    (hp : ∀ i, fenceBare.isPrefixOf (P.drop i) = false) :
    findSub fenceJson (P ++ '\n' :: fenceBare) = none := by
  induction P with
  | nil => rfl
  | cons c P ih =>
    rw [List.cons_append]
    have hpre : fenceJson.isPrefixOf (c :: (P ++ '\n' :: fenceBare)) = false := by
      by_cases hx : fenceJson.isPrefixOf (c :: (P ++ '\n' :: fenceBare)) = true
      · exfalso
        have hb := fenceBare_of_fenceJson hx
        rw [← List.cons_append] at hb
        have hinP := fenceBare_isPrefixOf_append hb
        have h0 := hp 0
        rw [List.drop_zero] at h0
        rw [h0] at hinP
        cases hinP
      · exact bool_eq_false hx
    simp only [findSub]
    rw [if_neg (bool_ne_true hpre), Option.map_eq_none']
    exact ih (fun i => by
      have := hp (i + 1)
      rwa [List.drop_succ_cons] at this)

theorem findSub_bare_tail1 {P : List Char}
    (hp : ∀ i, fenceBare.isPrefixOf (P.drop i) = false) :
    findSub fenceBare (P ++ ['\n']) = none := by
  induction P with
  | nil => rfl
  | cons c P ih =>
    rw [List.cons_append]
    have hpre : fenceBare.isPrefixOf (c :: (P ++ ['\n'])) = false := by
      by_cases hx : fenceBare.isPrefixOf (c :: (P ++ ['\n'])) = true
      · exfalso
        rw [← List.cons_append] at hx
        have hinP := @fenceBare_isPrefixOf_append (c :: P) [] hx
        have h0 := hp 0
        rw [List.drop_zero] at h0
        rw [h0] at hinP
        cases hinP
      · exact bool_eq_false hx
    simp only [findSub]
    rw [if_neg (bool_ne_true hpre), Option.map_eq_none']
    exact ih (fun i => by
      have := hp (i + 1)
      rwa [List.drop_succ_cons] at this)

/-- Scanning a match-free string accumulates it whole. -/
theorem splitGo_nomatch {needle s : List Char}
    (h : ∀ i, needle.isPrefixOf (s.drop i) = false) :
    ∀ cur, splitGo needle 0 s cur = [cur.reverse ++ s] := by
  induction s with
  | nil =>
    intro cur
    simp [splitGo]
  | cons c cs ih =>
    intro cur
    have h0 := h 0
    rw [List.drop_zero] at h0
    simp only [splitGo]
    rw [if_neg (bool_ne_true h0)]
    rw [ih (fun i => by
      have := h (i + 1)
      rwa [List.drop_succ_cons] at this) (c :: cur)]
    simp

/-- Scanning `P ++ '\n' :: fenceBare` for the bare fence, with `P`
fence-free, yields the text before the fence and an empty final segment. -/
theorem splitGo_to_fence {P : List Char}
    (hp : ∀ i, fenceBare.isPrefixOf (P.drop i) = false) :
    ∀ cur, splitGo fenceBare 0 (P ++ '\n' :: fenceBare) cur
      = (cur.reverse ++ P ++ ['\n']) :: [[]] := by
  induction P with
  | nil =>
    intro cur
    show splitGo fenceBare 0 ('\n' :: fenceBare) cur
      = (cur.reverse ++ [] ++ ['\n']) :: [[]]
    simp only [splitGo]
    rw [if_neg (bool_ne_true
      (show fenceBare.isPrefixOf ('\n' :: fenceBare) = false from rfl))]
    show (('\n' :: cur).reverse) :: splitGo fenceBare 2 "``".data [] = _
    simp [splitGo]
  | cons c P ih =>
    intro cur
    rw [List.cons_append]
    have hpre : fenceBare.isPrefixOf (c :: (P ++ '\n' :: fenceBare)) = false := by
      by_cases hx : fenceBare.isPrefixOf (c :: (P ++ '\n' :: fenceBare)) = true
      · exfalso
        rw [← List.cons_append] at hx
        have hinP := fenceBare_isPrefixOf_append hx
        have h0 := hp 0
        rw [List.drop_zero] at h0
        rw [h0] at hinP
        cases hinP
      · exact bool_eq_false hx
    simp only [splitGo]
    rw [if_neg (bool_ne_true hpre)]
    rw [ih (fun i => by
      have := hp (i + 1)
      rwa [List.drop_succ_cons] at this) (c :: cur)]
    simp

/-! Stripping the fence leaves the payload padded by the fence-adjacent
newlines; `str.strip()` removes them. -/

theorem pyStrip_cons_nl (x : List Char) : pyStrip ('\n' :: x) = pyStrip x := rfl

theorem dTW_append_nl (x : List Char) :
    dropTrailingWS (x ++ ['\n']) = dropTrailingWS x := by
  induction x with
  | nil => rfl
  | cons c cs ih =>
    show dropTrailingWS (c :: (cs ++ ['\n'])) = _
    simp only [dropTrailingWS]
    rw [ih]

theorem pyStrip_append_nl (x : List Char) : pyStrip (x ++ ['\n']) = pyStrip x := by
  show dropTrailingWS (List.dropWhile pyIsSpace (x ++ ['\n']))
    = dropTrailingWS (List.dropWhile pyIsSpace x)
  induction x with
  | nil => rfl
  | cons c cs ih =>
    by_cases hc : pyIsSpace c = true
    · rw [List.cons_append]
      rw [show List.dropWhile pyIsSpace (c :: (cs ++ ['\n']))
          = List.dropWhile pyIsSpace (cs ++ ['\n']) from by
        simp [List.dropWhile_cons, hc]]
      rw [show List.dropWhile pyIsSpace (c :: cs) = List.dropWhile pyIsSpace cs from by
        simp [List.dropWhile_cons, hc]]
      exact ih
    · rw [List.cons_append]
      rw [show List.dropWhile pyIsSpace (c :: (cs ++ ['\n'])) = c :: (cs ++ ['\n']) from by
        simp [List.dropWhile_cons, bool_eq_false hc]]
      rw [show List.dropWhile pyIsSpace (c :: cs) = c :: cs from by
        simp [List.dropWhile_cons, bool_eq_false hc]]
      exact dTW_append_nl (c :: cs)

/-- C8, amended: fence equivalence does hold for every payload that does not
itself contain the three-backtick substring.  For such a payload `P`, the
response `P` wrapped in a ```` ```json ```` fence, wrapped in a bare
```` ``` ```` fence, or sent unfenced yields the identical parsed
extraction, hence the identical extract-stage output for every input state
and error list.  (The unrestricted claim fails on payloads containing
backtick runs, as the counterexample shows.) -/
theorem C8_fence_tolerance (P : List Char)
    (hfree : containsSub P fenceBare = false) :
    parsedExtraction (c8wrapJson P) = parsedExtraction P
    ∧ parsedExtraction (c8wrapBare P) = parsedExtraction P
    ∧ ∀ segmented ext errors0,
        extractStructuredFields segmented ext errors0 (some (c8wrapJson P))
          = extractStructuredFields segmented ext errors0 (some P)
        ∧ extractStructuredFields segmented ext errors0 (some (c8wrapBare P))
          = extractStructuredFields segmented ext errors0 (some P) := by
  have hnone : findSub fenceBare P = none := by
    rcases hfs : findSub fenceBare P with _ | v
    · rfl
    · exfalso
      rw [containsSub, hfs] at hfree
      cases hfree
  have hp : ∀ i, fenceBare.isPrefixOf (P.drop i) = false :=
    findSub_eq_none_iff.1 hnone
  have hpJ : ∀ i, fenceJson.isPrefixOf (P.drop i) = false := by
    intro i
    by_cases hx : fenceJson.isPrefixOf (P.drop i) = true
    · exfalso
      have hb := fenceBare_of_fenceJson hx
      rw [hp i] at hb
      cases hb
    · exact bool_eq_false hx
  have hJnone : findSub fenceJson P = none := findSub_eq_none_iff.2 hpJ
  have hcJ : containsSub P fenceJson = false := by
    rw [containsSub, hJnone]
    rfl
  have hplain : fenceStrip P = P := by
    simp [fenceStrip, hcJ, hfree]
  have htailJ : ∀ i, fenceJson.isPrefixOf ((P ++ '\n' :: fenceBare).drop i) = false :=
    findSub_eq_none_iff.1 (findSub_json_tail hp)
  have htailB1 : ∀ i, fenceBare.isPrefixOf ((P ++ ['\n']).drop i) = false :=
    findSub_eq_none_iff.1 (findSub_bare_tail1 hp)
  have hJ1 : containsSub (c8wrapJson P) fenceJson = true := rfl
  have hsplitJ : splitSub fenceJson (c8wrapJson P)
      = [] :: splitGo fenceJson 0 (P ++ '\n' :: fenceBare) ['\n'] := rfl
  have hgoJ : splitGo fenceJson 0 (P ++ '\n' :: fenceBare) ['\n']
      = ['\n' :: (P ++ '\n' :: fenceBare)] := by
    rw [splitGo_nomatch htailJ]
    rfl
  have hfsJ : fenceStrip (c8wrapJson P) = ('\n' :: P) ++ ['\n'] := by
    have e1 : fenceStrip (c8wrapJson P)
        = (splitSub fenceBare ((splitSub fenceJson (c8wrapJson P)).getD 1 [])).headD [] := by
      unfold fenceStrip
      rw [if_pos hJ1]
    rw [e1, hsplitJ, hgoJ]
    show (splitGo fenceBare 0 (P ++ '\n' :: fenceBare) ['\n']).headD []
      = ('\n' :: P) ++ ['\n']
    rw [splitGo_to_fence hp]
    rfl
  have hB1 : containsSub (c8wrapBare P) fenceJson = false := by
    have e : findSub fenceJson (c8wrapBare P)
        = ((((findSub fenceJson (P ++ '\n' :: fenceBare)).map (fun n => n + 1)).map
            (fun n => n + 1)).map (fun n => n + 1)).map (fun n => n + 1) := rfl
    rw [containsSub, e, findSub_json_tail hp]
    rfl
  have hB2 : containsSub (c8wrapBare P) fenceBare = true := rfl
  have hsplitB : splitSub fenceBare (c8wrapBare P)
      = [] :: splitGo fenceBare 0 (P ++ '\n' :: fenceBare) ['\n'] := rfl
  have hfsB : fenceStrip (c8wrapBare P) = ('\n' :: P) ++ ['\n'] := by
    have e1 : fenceStrip (c8wrapBare P)
        = (splitSub fenceBare ((splitSub fenceBare (c8wrapBare P)).getD 1 [])).headD [] := by
      unfold fenceStrip
      rw [if_neg (bool_ne_true hB1), if_pos hB2]
    rw [e1, hsplitB, splitGo_to_fence hp]
    show (splitGo fenceBare 0 (P ++ ['\n']) ['\n']).headD [] = ('\n' :: P) ++ ['\n']
    rw [splitGo_nomatch htailB1]
    rfl
  have hpad : pyStrip (('\n' :: P) ++ ['\n']) = pyStrip P := by
    rw [show ('\n' :: P) ++ ['\n'] = '\n' :: (P ++ ['\n']) from rfl]
    rw [pyStrip_cons_nl, pyStrip_append_nl]
  have hJeq : parsedExtraction (c8wrapJson P) = parsedExtraction P := by
    rw [parsedExtraction, parsedExtraction, hfsJ, hpad, hplain]
  have hBeq : parsedExtraction (c8wrapBare P) = parsedExtraction P := by
    rw [parsedExtraction, parsedExtraction, hfsB, hpad, hplain]
  refine ⟨hJeq, hBeq, ?_⟩
  intro segmented ext errors0
  have hJeq2 : jsonParse (pyStrip (fenceStrip (c8wrapJson P)))
      = jsonParse (pyStrip (fenceStrip P)) := hJeq
  have hBeq2 : jsonParse (pyStrip (fenceStrip (c8wrapBare P)))
      = jsonParse (pyStrip (fenceStrip P)) := hBeq
  constructor
  · simp only [extractStructuredFields]
    rw [hJeq2]
  · simp only [extractStructuredFields]
    rw [hBeq2]

set_option maxRecDepth 200000 in
/-- The fence-equivalence theorem instantiated at the concrete payload
`{"a": 1}`, which contains no backticks. -/
theorem C8_fence_tolerance_witness :
    containsSub "\x7b\"a\": 1\x7d".data fenceBare = false
    ∧ parsedExtraction (c8wrapJson "\x7b\"a\": 1\x7d".data)
        = parsedExtraction "\x7b\"a\": 1\x7d".data
    ∧ parsedExtraction (c8wrapBare "\x7b\"a\": 1\x7d".data)
        = parsedExtraction "\x7b\"a\": 1\x7d".data :=
  ⟨rfl, (C8_fence_tolerance "\x7b\"a\": 1\x7d".data rfl).1,
    (C8_fence_tolerance "\x7b\"a\": 1\x7d".data rfl).2.1⟩

end CareerAttendant
